import Mathlib

/-!
Verification development for the eino-skills repository (Go).

The Go code is shallowly embedded: strings are modelled as `List Char`
(`Str`), pure Go functions over strings become structurally recursive Lean
functions, filesystem and YAML deserialization (external collaborators in
the spec) are abstracted as explicit parameters, and the watcher event loop
and registry locking are modelled as explicit transition systems.

Go's byte-oriented string primitives (`strings.TrimSpace`, `strings.Split`,
`strings.EqualFold`, `strings.Fields`, `strings.Contains`, `filepath.Base`,
`bufio.ScanLines`) are reproduced below on `List Char`; Unicode-specific
behaviour (non-ASCII case folding, non-ASCII whitespace) is out of scope and
the embeddings agree with Go on ASCII input, which is all the claims use.
-/

set_option autoImplicit false

/-- Strings are modelled as lists of characters. -/
abbrev Str := List Char

/-- ASCII whitespace recognised by Go's `unicode.IsSpace` (ASCII fragment):
space, tab, newline, carriage return, vertical tab, form feed. -/
def isSpace (c : Char) : Bool :=
  c = ' ' || c = '\t' || c = '\n' || c = '\r' || c = '\x0b' || c = '\x0c'

/-- Drop leading whitespace (the left half of Go's `strings.TrimSpace`). -/
def trimLeft (s : Str) : Str := s.dropWhile isSpace

/-- Go's `strings.TrimSpace`: drop leading and trailing whitespace. -/
def trimSpace (s : Str) : Str := ((trimLeft s).reverse.dropWhile isSpace).reverse

/-- Go's `strings.Split(s, "\n")`: the empty string splits to one empty
piece, and every newline separates two pieces. -/
def splitLines : Str → List Str
  | [] => [[]]
  | c :: cs =>
    if c = '\n' then [] :: splitLines cs
    else
      match splitLines cs with
      | [] => [[c]]
      | l :: ls => (c :: l) :: ls

/-- Go's `strings.Join(lines, "\n")`. -/
def joinLines (ls : List Str) : Str := match ls with
  | [] => []
  | [l] => l
  | l :: ls => l ++ '\n' :: joinLines ls

/-- Count how many times `ch` appears at the start of `s`; embeds the Go
helper `countPrefix` from the parser (stops at the first other character). -/
def countLeading : Str → Char → Nat
  | [], _ => 0
  | c :: cs, ch => if c = ch then countLeading cs ch + 1 else 0

/-- ASCII lowering, the fragment of Go's case folding the claims exercise. -/
def lowerChar (c : Char) : Char :=
  if 'A' ≤ c && c ≤ 'Z' then Char.ofNat (c.toNat + 32) else c

/-- Lower-case a whole string (Go `strings.ToLower`, ASCII fragment). -/
def lowerStr (s : Str) : Str := s.map lowerChar

/-- Go's `strings.EqualFold` on ASCII: equality up to case. -/
def eqFold (a b : Str) : Bool := lowerStr a = lowerStr b

/-- Whether `p` is a leading segment of `s` (Go `strings.HasPrefix`). -/
def strLeads : Str → Str → Bool
  | _, [] => true
  | [], _ :: _ => false
  | c :: cs, p :: ps => c = p && strLeads cs ps

/-- Go's `strings.Contains s sub`: `sub` occurs contiguously inside `s`
(always true for the empty `sub`). -/
def strContains (s sub : Str) : Bool :=
  if sub = [] then true
  else match s with
    | [] => false
    | _ :: cs => strLeads s sub || strContains cs sub

/-- A line is recognised as a heading when its very first character is `#`
(Go `strings.HasPrefix(line, "#")` in `ExtractSection`). -/
def isHeading (l : Str) : Bool := strLeads l ['#']

/-- The heading depth: the number of leading `#` characters
(`countPrefix(line, '#')` in the Go source). -/
def headingLevel (l : Str) : Nat := countLeading l '#'

/-- The trimmed label of a heading line:
`strings.TrimSpace(strings.TrimLeft(line, "#"))`. -/
def headingText (l : Str) : Str := trimSpace (l.dropWhile (· = '#'))

/-- The accumulator loop of `Parser.ExtractSection` transcribed from the Go
source: walk the lines carrying `inSection` and `sectionLevel`; a heading
whose label folds to the requested name (re)enters the section at its level;
once inside, a same-or-higher-level non-matching heading stops the walk. -/
def extractLoop (heading : Str) : List Str → Bool → Nat → List Str → List Str
  | [], _, _, acc => acc
  | l :: ls, inSec, lvl, acc =>
    if isHeading l then
      if eqFold (headingText l) heading then
        extractLoop heading ls true (headingLevel l) (acc ++ [l])
      else if inSec then
        if headingLevel l ≤ lvl then acc
        else extractLoop heading ls inSec lvl (acc ++ [l])
      else extractLoop heading ls inSec lvl acc
    else if inSec then extractLoop heading ls inSec lvl (acc ++ [l])
    else extractLoop heading ls inSec lvl acc

/-- `Parser.ExtractSection` from the Go source: split into lines, run the
section walk, join and trim the result. -/
def ExtractSection (body heading : Str) : Str :=
  trimSpace (joinLines (extractLoop heading (splitLines body) false 0 []))

/-- Search phase of the declarative view of `ExtractSection`: the first line
that is a heading (first character `#`) whose trimmed label case-folds to the
requested name, together with the lines after it. -/
def findMatch (heading : Str) : List Str → Option (Str × List Str)
  | [] => none
  | l :: ls =>
    if isHeading l then
      if eqFold (headingText l) heading then some (l, ls)
      else findMatch heading ls
    else findMatch heading ls

/-- Capture phase of the declarative view of `ExtractSection`, starting just
below a matched heading of level `lvl`: keep every non-heading line and
every deeper non-matching heading; a heading whose label again case-folds to
the requested name is also kept and resets the reference level to its own;
stop (exclusive) at the first non-matching heading of level at most the
current reference level. -/
def captureGo (heading : Str) (lvl : Nat) : List Str → List Str
  | [] => []
  | l :: ls =>
    if isHeading l then
      if eqFold (headingText l) heading then l :: captureGo heading (headingLevel l) ls
      else if headingLevel l ≤ lvl then []
      else l :: captureGo heading lvl ls
    else l :: captureGo heading lvl ls

/-- Declarative form of the section extractor, phrased as the amended claim
reads: find the first matching heading, then capture until the first
non-matching heading of same-or-higher level, where a repeated matching
heading re-enters the section at its own level instead of terminating it;
empty when no heading matches; result trimmed of surrounding whitespace. -/
def specExtractSection (body heading : Str) : Str :=
  match findMatch heading (splitLines body) with
  | none => []
  | some (l, rest) =>
    trimSpace (joinLines (l :: captureGo heading (headingLevel l) rest))

/-- Capture phase as claim C1 literally reads: the termination level `lvl`
is fixed at the first match, and any subsequent heading of level at most
`lvl` terminates the span, whether or not its label matches. -/
def claimCapture (lvl : Nat) : List Str → List Str
  | [] => []
  | l :: ls =>
    if isHeading l then
      if headingLevel l ≤ lvl then []
      else l :: claimCapture lvl ls
    else l :: claimCapture lvl ls

/-- Section extraction exactly as claim C1 states it (used only to exhibit
where the code deviates from the claim). -/
def claimExtractSection (body heading : Str) : Str :=
  match findMatch heading (splitLines body) with
  | none => []
  | some (l, rest) => trimSpace (joinLines (l :: claimCapture (headingLevel l) rest))

/-- The indentation-plus-line rendering of one outline entry:
2 × (level − 1) spaces, then the heading line with its markup. -/
def tocLine (l : Str) : Str := List.replicate (2 * (headingLevel l - 1)) ' ' ++ l

/-- A line participating in the outline: heading depth between 1 and 6. -/
def isTocHeading (l : Str) : Bool := 1 ≤ headingLevel l && headingLevel l ≤ 6

/-- The trimmed heading lines of a body, in document order. -/
def tocHeadings (body : Str) : List Str :=
  ((splitLines body).map trimSpace).filter isTocHeading

/-- Modelled from the spec: the implementation of `Parser.ExtractTOC` is not
under src (only its tests and examples are). Spec §4.1, outline extraction:
for every body line that is a heading of level 1–6, emit one line of
2 × (level − 1) spaces followed by the heading with its original markup, in
document order; no headings give an empty result. Lines are trimmed before
the heading check, as pinned by the `headings with leading spaces` case of
`TestExtractTOC`. -/
def ExtractTOC (body : Str) : Str := joinLines ((tocHeadings body).map tocLine)

/-- The part of the `SKILL.md` YAML header that the loader validates. -/
structure Frontmatter where
  name : Str
  description : Str
deriving DecidableEq

/-- Failure outcomes of the parser, one constructor per distinct error the
Go source can produce (`SkillError` values and validation errors). -/
inductive ParseErr where
  | invalidFrontmatter
  | missingClosing
  | yamlErr
  | missingName
  | nameTooLong
  | missingDescription
  | descriptionTooLong
  | frontmatterTooLong
deriving DecidableEq

/-- The `InvalidFormat` class of the spec's error taxonomy: malformed or
missing frontmatter delimiters. -/
def ParseErr.isInvalidFormat : ParseErr → Bool
  | .invalidFrontmatter => true
  | .missingClosing => true
  | .frontmatterTooLong => true
  | _ => false

def MaxNameLength : Nat := 64

def MaxDescriptionLength : Nat := 1024

/-- `Frontmatter.Validate` from the Go source: required fields present and
within the length caps, checked in source order. -/
def Frontmatter.Validate (f : Frontmatter) : Except ParseErr Unit :=
  if f.name = [] then .error .missingName
  else if MaxNameLength < f.name.length then .error .nameTooLong
  else if f.description = [] then .error .missingDescription
  else if MaxDescriptionLength < f.description.length then .error .descriptionTooLong
  else .ok ()

/-- The frontmatter delimiter: a line trimming to exactly this string. -/
def delim : Str := "---".data

/-- Index of the first line trimming to the delimiter, if any. -/
def findDelim : List Str → Option Nat
  | [] => none
  | l :: ls => if trimSpace l = delim then some 0 else (findDelim ls).map (· + 1)

/-- Indices of the first and second delimiter lines, as the scan in
`Parser.splitFrontmatter` finds them. -/
def findDelims (ls : List Str) : Option (Nat × Nat) :=
  match findDelim ls with
  | none => none
  | some i =>
    match findDelim (ls.drop (i + 1)) with
    | none => none
    | some j => some (i, i + 1 + j)

/-- `Parser.splitFrontmatter` from the Go source: the trimmed document must
start with the bytes `---` (a prefix check); the header is the block
strictly between the first two lines trimming to `---`; the body is
everything after the second, trimmed. -/
def splitFrontmatter (data : Str) : Except ParseErr (Str × Str) :=
  if strLeads (trimSpace data) delim then
    match findDelims (splitLines data) with
    | none => .error .missingClosing
    | some (s, e) =>
      let lines := splitLines data
      .ok (joinLines ((lines.drop (s + 1)).take (e - (s + 1))),
        trimSpace (joinLines (lines.drop (e + 1))))
  else .error .invalidFrontmatter

/-- `Parser.Parse` from the Go source, with the external YAML deserializer
abstracted as a function `yaml` (`none` models an unmarshal error). -/
def Parse (yaml : Str → Option Frontmatter) (data : Str) :
    Except ParseErr (Frontmatter × Str) :=
  match splitFrontmatter data with
  | .error e => .error e
  | .ok (fmStr, body) =>
    match yaml fmStr with
    | none => .error .yamlErr
    | some fm =>
      match fm.Validate with
      | .error e => .error e
      | .ok _ => .ok (fm, body)

/-- How many lines of a document trim to exactly the delimiter. -/
def numDelimLines : List Str → Nat
  | [] => 0
  | l :: ls => (if trimSpace l = delim then 1 else 0) + numDelimLines ls

/-- Whether the (trimmed) document's first line is exactly the delimiter —
the reading of claim C4; the Go source instead only checks the prefix. -/
def firstLineIsDelim (data : Str) : Bool :=
  (splitLines (trimSpace data)).headD [] == delim

/-- The proposition that `Parse` rejects a document as `InvalidFormat`
regardless of how the external YAML deserializer behaves. -/
def ParseAlwaysInvalidFormat (data : Str) : Prop :=
  ∀ yaml : Str → Option Frontmatter,
    ∃ e, Parse yaml data = .error e ∧ e.isInvalidFormat = true

/-- Strip one trailing carriage return, as `bufio.ScanLines` does. -/
def dropTrailingCR (l : Str) : Str :=
  match l.getLast? with
  | some c => if c = '\r' then l.dropLast else l
  | none => l

/-- Go's `bufio.Scanner` with `ScanLines`: the input's lines without their
terminators; a trailing newline does not produce a final empty line. -/
def scanLines (s : Str) : List Str :=
  match s with
  | [] => []
  | _ =>
    let ls := splitLines s
    (if ls.getLast? = some [] then ls.dropLast else ls).map dropTrailingCR

/-- The scanner loop of `Parser.ParseMetadataOnly` transcribed from the Go
source: `cnt` is `lineCount`; a first delimiter line opens the block
(skipping the length guard via `continue`), a second ends it; any other
line is appended when inside the block, and then the total-line guard
`lineCount > 100` fires the too-long error. -/
def metadataLoop : List Str → Bool → Nat → List Str → Except ParseErr (List Str)
  | [], _, _, acc => .ok acc
  | l :: ls, inFm, cnt, acc =>
    if trimSpace l = delim then
      if inFm then .ok acc
      else metadataLoop ls true (cnt + 1) acc
    else if 100 < cnt + 1 then .error .frontmatterTooLong
    else metadataLoop ls inFm (cnt + 1) (if inFm then acc ++ [l] else acc)

/-- The frontmatter-block phase of `ParseMetadataOnly`: run the scanner
loop, then reject an empty block (`ErrInvalidFrontmatter`). -/
def metadataBlock (content : Str) : Except ParseErr (List Str) :=
  match metadataLoop (scanLines content) false 0 [] with
  | .error e => .error e
  | .ok [] => .error .invalidFrontmatter
  | .ok acc => .ok acc

/-- `Parser.ParseMetadataOnly` from the Go source, with the file contents
passed in place of the file handle and the YAML deserializer abstracted. -/
def ParseMetadataOnly (yaml : Str → Option Frontmatter) (content : Str) :
    Except ParseErr Frontmatter :=
  match metadataBlock content with
  | .error e => .error e
  | .ok ls =>
    match yaml (joinLines ls) with
    | none => .error .yamlErr
    | some fm =>
      match fm.Validate with
      | .error e => .error e
      | .ok _ => .ok fm

/-- Where a skill was loaded from. -/
inductive SkillSource where
  | global
  | project
  | builtin
  | plugin
deriving DecidableEq

/-- The lightweight metadata projection kept by the registry. -/
structure SkillMetadata where
  name : Str
  description : Str
  source : SkillSource
  path : Str
deriving DecidableEq

/-- A loaded skill (the fields the claims exercise). -/
structure Skill where
  name : Str
  description : Str
  path : Str
  content : Str
  source : SkillSource
deriving DecidableEq

/-- A directory entry of a skills root as `loadMetadataFromDir` sees it,
with the filesystem and per-entry `ParseMetadataOnly` outcome abstracted:
`parsed = none` models any per-entry failure (entry silently skipped). -/
structure MetaEntry where
  isDir : Bool
  dirName : Str
  parsed : Option Frontmatter

/-- A directory entry of a skills root as `loadFromDir` sees it, with the
per-entry `loadSingleSkill` outcome abstracted: frontmatter and body on
success, `none` for a skipped (warned-about) failure. -/
structure SkillEntry where
  isDir : Bool
  dirName : Str
  loaded : Option (Frontmatter × Str)

/-- Insert-or-replace on an association list keyed by name; the shallow
model of one Go `map[string]V` assignment. -/
def upsert {α : Type} (k : Str) (v : α) : List (Str × α) → List (Str × α)
  | [] => [(k, v)]
  | (k2, v2) :: t => if k2 = k then (k, v) :: t else (k2, v2) :: upsert k v t

/-- Lookup on the association-list model of a Go map. -/
def lookupKey {α : Type} (k : Str) : List (Str × α) → Option α
  | [] => none
  | (k2, v) :: t => if k2 = k then some v else lookupKey k t

/-- The keys of the association-list model of a Go map. -/
def keysOf {α : Type} (m : List (Str × α)) : List Str := m.map (·.1)

/-- Fold a directory's entries into the map, one upsert per entry that
produced a value; the shared shape of `loadMetadataFromDir` and the
per-root loop of `LoadAll`. -/
def runEntries {E α : Type} (g : E → Option (Str × α)) (es : List E)
    (m : List (Str × α)) : List (Str × α) :=
  es.foldl (fun m e =>
    match g e with
    | none => m
    | some (k, v) => upsert k v m) m

/-- What one directory entry contributes in `loadMetadataFromDir`: skipped
unless it is a directory whose `SKILL.md` metadata parsed. -/
def metaOutcome (dir : Str) (source : SkillSource) (e : MetaEntry) :
    Option (Str × SkillMetadata) :=
  if e.isDir then
    match e.parsed with
    | none => none
    | some fm => some (fm.name, ⟨fm.name, fm.description, source, dir ++ '/' :: e.dirName⟩)
  else none

/-- `Loader.loadMetadataFromDir` from the Go source. -/
def loadMetadataFromDir (dir : Str) (source : SkillSource) (es : List MetaEntry)
    (m : List (Str × SkillMetadata)) : List (Str × SkillMetadata) :=
  runEntries (metaOutcome dir source) es m

/-- `Loader.LoadMetadataOnly` from the Go source: global entries first,
then project entries over the same map, then the map's values. -/
def LoadMetadataOnly (globalDir projectDir : Str) (globalEntries projectEntries : List MetaEntry) :
    List SkillMetadata :=
  (loadMetadataFromDir projectDir .project projectEntries
    (loadMetadataFromDir globalDir .global globalEntries [])).map (·.2)

/-- What one directory entry contributes in `loadFromDir`/`LoadAll`. -/
def skillOutcome (dir : Str) (source : SkillSource) (e : SkillEntry) :
    Option (Str × Skill) :=
  if e.isDir then
    match e.loaded with
    | none => none
    | some (fm, body) =>
      some (fm.name, ⟨fm.name, fm.description, dir ++ '/' :: e.dirName, body, source⟩)
  else none

/-- `Loader.LoadAll` from the Go source: global skills into the map first,
project skills over them, then the map's values. -/
def LoadAll (globalDir projectDir : Str) (globalEntries projectEntries : List SkillEntry) :
    List Skill :=
  (runEntries (skillOutcome projectDir .project) projectEntries
    (runEntries (skillOutcome globalDir .global) globalEntries [])).map (·.2)

/-- The `SkillError` type from the Go source; `err` holds the rendered
message of the wrapped error, when one is present. -/
structure SkillError where
  skillPath : Str
  message : Str
  err : Option Str
deriving DecidableEq

/-- `SkillError.Error()` from the Go source: the message, with a wrapped
error appended after a colon. -/
def SkillError.render (e : SkillError) : Str :=
  match e.err with
  | some inner => e.message ++ ':' :: ' ' :: inner
  | none => e.message

/-- The error `Loader.LoadSkill` builds when no root has the skill: the
name goes into `SkillPath`, the message is the fixed text. -/
def notFoundError (name : Str) : SkillError :=
  ⟨name, "skill not found".data, none⟩

/-- `Loader.LoadSkill` from the Go source: try the project root, then the
global root; per-root loads are abstracted as functions that return `none`
on any failure. -/
def LoadSkill (projectLoad globalLoad : Str → Option Skill) (name : Str) :
    Except SkillError Skill :=
  match projectLoad name with
  | some s => .ok s
  | none =>
    match globalLoad name with
    | some s => .ok s
    | none => .error (notFoundError name)

/-- `Registry.Get` from the Go source: cached skill, else load on demand
through `LoadSkill` (the error propagates unchanged). -/
def registryGet (cache projectLoad globalLoad : Str → Option Skill) (name : Str) :
    Except SkillError Skill :=
  match cache name with
  | some s => .ok s
  | none => LoadSkill projectLoad globalLoad name

/-- The ASCII apostrophe used in the `view_skill` error text. -/
def quoteChar : Char := Char.ofNat 39

/-- The wrapped message the `view_skill` tool shows when a by-name load
fails: `failed to load skill '<name>': <error>`. -/
def viewSkillErrorMessage (name : Str) (e : SkillError) : Str :=
  "failed to load skill ".data ++ quoteChar :: (name ++ quoteChar :: ':' :: ' ' :: e.render)

/-- `strings.Fields`: maximal runs of non-whitespace, via an accumulator
for the word being built (held reversed). -/
def fieldsAux : Str → Str → List Str
  | [], cur => if cur = [] then [] else [cur.reverse]
  | c :: cs, cur =>
    if isSpace c then
      if cur = [] then fieldsAux cs []
      else cur.reverse :: fieldsAux cs []
    else fieldsAux cs (c :: cur)

/-- Go's `strings.Fields`. -/
def fields (s : Str) : List Str := fieldsAux s []

/-- `Registry.calculateMatchScore` from the Go source: +3 per query word
contained in the lower-cased name, then +1 per query word longer than two
characters contained in the lower-cased description. -/
def calculateMatchScore (query : Str) (m : SkillMetadata) : Nat :=
  let queryWords := fields query
  let nameScore := queryWords.foldl
    (fun sc w => if strContains (lowerStr m.name) w then sc + 3 else sc) 0
  queryWords.foldl
    (fun sc w =>
      if decide (2 < w.length) && strContains (lowerStr m.description) w then sc + 1 else sc)
    nameScore

/-- The best-match fold of `Registry.FindMatchingSkill`: strictly better
scores replace the current best, so the first maximum is kept. -/
def findBestAux (q : Str) : List SkillMetadata → Option SkillMetadata → Nat →
    Option SkillMetadata × Nat
  | [], best, sc => (best, sc)
  | m :: ms, best, sc =>
    if sc < calculateMatchScore q m then
      findBestAux q ms (some m) (calculateMatchScore q m)
    else findBestAux q ms best sc

/-- `Registry.FindMatchingSkill` from the Go source: lower-case the query,
fold for the best score, require a score of at least 2. -/
def FindMatchingSkill (metadata : List SkillMetadata) (query : Str) :
    Option SkillMetadata :=
  let r := findBestAux (lowerStr query) metadata none 0
  if r.2 < 2 then none else r.1

/-- The maximum score any entry attains (0 when the list is empty). -/
def maxScore (q : Str) (ms : List SkillMetadata) : Nat :=
  ms.foldl (fun a m => max a (calculateMatchScore q m)) 0

/-- The claim's reading of the matcher: the first entry in list order
attaining the maximum score, returned exactly when that score is ≥ 2. -/
def specFindMatchingSkill (ms : List SkillMetadata) (query : Str) :
    Option SkillMetadata :=
  let q := lowerStr query
  if 2 ≤ maxScore q ms then
    ms.find? (fun m => calculateMatchScore q m == maxScore q ms)
  else none

/-- The number of list elements satisfying a predicate (used to state the
per-word additive reading of the score). -/
def countMatches {α : Type} (p : α → Bool) : List α → Nat
  | [] => 0
  | a :: l => (if p a then 1 else 0) + countMatches p l

/-- The claim's additive reading of the score: 3 per query word contained
in the lower-cased name plus 1 per query word longer than two characters
contained in the lower-cased description. -/
def specScore (q : Str) (m : SkillMetadata) : Nat :=
  3 * countMatches (fun w => strContains (lowerStr m.name) w) (fields q) +
    countMatches
      (fun w => decide (2 < w.length) && strContains (lowerStr m.description) w)
      (fields q)

/-- The required document name, `SkillFileName` in the Go source. -/
def SkillFileName : Str := "SKILL.md".data

def stripTrailingSep (p : Str) : Str := (p.reverse.dropWhile (· = '/')).reverse

def lastComponent (p : Str) : Str := (p.reverse.takeWhile (· ≠ '/')).reverse

/-- Go's `filepath.Base` on unix paths. -/
def baseName (p : Str) : Str :=
  if p = [] then ['.']
  else if stripTrailingSep p = [] then ['/']
  else lastComponent (stripTrailingSep p)

/-- One filesystem notification as `Watcher.run` consumes it: the path, the
operation bits the claim distinguishes, and the `os.Stat` directory answer
for the path. -/
structure FsEvent where
  name : Str
  isWrite : Bool
  isCreate : Bool
  isDir : Bool
deriving DecidableEq

/-- The event-relevant state of the watcher loop: whether the debounce
timer is armed, the pending-reload flag, and the watched directories. -/
structure WatchState where
  timerArmed : Bool
  pending : Bool
  watched : List Str
deriving DecidableEq

/-- The event case of `Watcher.run` transcribed from the Go source: an
event whose base name is not the skill filename is ignored unless it is the
creation of a directory, which is added to the watch set; any event whose
base name is the skill filename (new or reset) arms the debounce timer and
marks a reload pending. -/
def handleEvent (s : WatchState) (e : FsEvent) : WatchState :=
  if baseName e.name ≠ SkillFileName then
    if e.isCreate ∧ e.isDir = true then
      { s with watched := s.watched ++ [e.name] }
    else s
  else { s with timerArmed := true, pending := true }

/-- Writer program counter for the `Initialize`/`Reload` critical section,
in the order the Go source performs the steps. -/
inductive WriterPc where
  | lock
  | setMeta
  | clearCache
  | unlock
  | done
deriving DecidableEq

/-- Reader program counter for `GetMetadata`. -/
inductive ReaderPc where
  | rlock
  | readMeta
  | runlock
  | done
deriving DecidableEq

/-- Shared state of the registry plus the two threads' program counters,
lock state, and what the reader observed. -/
structure RegState where
  wpc : WriterPc
  rpc : ReaderPc
  wheld : Bool
  rheld : Nat
  meta : List SkillMetadata
  cache : List (Str × Skill)
  observed : Option (List SkillMetadata × List (Str × Skill))
deriving DecidableEq

/-- One writer step of `Initialize`/`Reload`: acquire the write lock (only
with no lock holders), assign the new metadata list, reset the skills map,
release; `none` when the writer is blocked or finished. -/
def writerStep (newMeta : List SkillMetadata) (s : RegState) : Option RegState :=
  match s.wpc with
  | .lock =>
    if s.wheld = false ∧ s.rheld = 0 then
      some { s with wheld := true, wpc := .setMeta }
    else none
  | .setMeta => some { s with meta := newMeta, wpc := .clearCache }
  | .clearCache => some { s with cache := [], wpc := .unlock }
  | .unlock => some { s with wheld := false, wpc := .done }
  | .done => none

/-- One reader step of `GetMetadata`: take the read lock (blocked while the
writer holds the lock), read the registry state, release. -/
def readerStep (s : RegState) : Option RegState :=
  match s.rpc with
  | .rlock =>
    if s.wheld = false then some { s with rheld := s.rheld + 1, rpc := .readMeta }
    else none
  | .readMeta => some { s with observed := some (s.meta, s.cache), rpc := .runlock }
  | .runlock => some { s with rheld := s.rheld - 1, rpc := .done }
  | .done => none

/-- Run a schedule (`true` schedules the writer); `none` when a scheduled
thread is blocked or finished. -/
def runSched (newMeta : List SkillMetadata) : List Bool → RegState → Option RegState
  | [], s => some s
  | b :: bs, s =>
    match (if b then writerStep newMeta s else readerStep s) with
    | none => none
    | some s2 => runSched newMeta bs s2

/-- The state before a reload: both threads at their first action, no lock
held, the old metadata and cache in place. -/
def initState (oldMeta : List SkillMetadata) (oldCache : List (Str × Skill)) : RegState :=
  ⟨.lock, .rlock, false, 0, oldMeta, oldCache, none⟩

/-- The inductive invariant of the reload interleaving: the lock is held
exactly during the three in-section writer steps, the registry fields
follow the writer's phase, the reader holds the read lock exactly between
its first and last action, and anything observed is one of the two
consistent snapshots. -/
def RegInv (oldM newM : List SkillMetadata) (oldC : List (Str × Skill)) (s : RegState) : Prop :=
  (s.wheld = true ↔ (s.wpc = .setMeta ∨ s.wpc = .clearCache ∨ s.wpc = .unlock)) ∧
  ((s.wpc = .lock ∨ s.wpc = .setMeta) → s.meta = oldM ∧ s.cache = oldC) ∧
  (s.wpc = .clearCache → s.meta = newM ∧ s.cache = oldC) ∧
  ((s.wpc = .unlock ∨ s.wpc = .done) → s.meta = newM ∧ s.cache = []) ∧
  (s.rheld = if s.rpc = .readMeta ∨ s.rpc = .runlock then 1 else 0) ∧
  (∀ ob, s.observed = some ob → ob = (oldM, oldC) ∨ ob = (newM, [])) ∧
  (0 < s.rheld → s.wheld = false)

theorem extractLoop_inSection (heading : Str) :
    ∀ (ls : List Str) (lvl : Nat) (acc : List Str),
    extractLoop heading ls true lvl acc = acc ++ captureGo heading lvl ls := by
  intro ls
  induction ls with
  | nil => intro lvl acc; simp [extractLoop, captureGo]
  | cons l ls ih =>
    intro lvl acc
    by_cases hh : isHeading l = true
    · by_cases hm : eqFold (headingText l) heading = true
      · simp [extractLoop, captureGo, hh, hm, ih]
      · by_cases hl : headingLevel l ≤ lvl
        · simp [extractLoop, captureGo, hh, hm, hl]
        · simp [extractLoop, captureGo, hh, hm, hl, ih]
    · simp [extractLoop, captureGo, hh, ih]

theorem extractLoop_search (heading : Str) :
    ∀ (ls : List Str) (lvl : Nat) (acc : List Str),
    extractLoop heading ls false lvl acc =
      (match findMatch heading ls with
       | none => acc
       | some (l, rest) => acc ++ l :: captureGo heading (headingLevel l) rest) := by
  intro ls
  induction ls with
  | nil => intro lvl acc; simp [extractLoop, findMatch]
  | cons l ls ih =>
    intro lvl acc
    by_cases hh : isHeading l = true
    · by_cases hm : eqFold (headingText l) heading = true
      · simp [extractLoop, findMatch, hh, hm, extractLoop_inSection]
      · simp [extractLoop, findMatch, hh, hm, ih]
    · simp [extractLoop, findMatch, hh, ih]

theorem extractSection_eq_spec (body heading : Str) :
    ExtractSection body heading = specExtractSection body heading := by
  unfold ExtractSection specExtractSection
  rw [extractLoop_search]
  cases hfm : findMatch heading (splitLines body) with
  | none => simp [joinLines, trimSpace, trimLeft]
  | some p => cases p with
    | mk l rest => simp

theorem findMatch_eq_none (heading : Str) :
    ∀ (ls : List Str),
    (∀ l ∈ ls, isHeading l = true → eqFold (headingText l) heading = false) →
    findMatch heading ls = none := by
  intro ls
  induction ls with
  | nil => intro _; rfl
  | cons l ls ih =>
    intro h
    by_cases hh : isHeading l = true
    · have hm := h l (List.mem_cons_self l ls) hh
      simp only [findMatch, hh, if_true, hm]
      simp only [Bool.false_eq_true, if_false]
      exact ih fun x hx => h x (List.mem_cons_of_mem _ hx)
    · simp only [findMatch, hh, if_false]
      exact ih fun x hx => h x (List.mem_cons_of_mem _ hx)

theorem captureGo_all (heading : Str) :
    ∀ (ls : List Str) (lvl : Nat),
    (∀ l ∈ ls, isHeading l = true →
      eqFold (headingText l) heading = false ∧ lvl < headingLevel l) →
    captureGo heading lvl ls = ls := by
  intro ls
  induction ls with
  | nil => intro _ _; rfl
  | cons l ls ih =>
    intro lvl h
    by_cases hh : isHeading l = true
    · obtain ⟨hm, hl⟩ := h l (List.mem_cons_self l ls) hh
      simp [captureGo, hh, hm, Nat.not_le.mpr hl,
        ih lvl fun x hx => h x (List.mem_cons_of_mem _ hx)]
    · simp [captureGo, hh, ih lvl fun x hx => h x (List.mem_cons_of_mem _ hx)]

theorem splitLines_no_newline {l : Str} (h : '\n' ∉ l) : splitLines l = [l] := by
  induction l with
  | nil => rfl
  | cons c cs ih =>
    have hc : ¬ c = '\n' := fun e => h (e ▸ List.mem_cons_self c cs)
    have hcs := ih fun hm => h (List.mem_cons_of_mem _ hm)
    simp [splitLines, hc, hcs]

theorem splitLines_newline_append {l : Str} (s : Str) (h : '\n' ∉ l) :
    splitLines (l ++ '\n' :: s) = l :: splitLines s := by
  induction l with
  | nil => simp [splitLines]
  | cons c cs ih =>
    have hc : ¬ c = '\n' := fun e => h (e ▸ List.mem_cons_self c cs)
    have hcs := ih fun hm => h (List.mem_cons_of_mem _ hm)
    simp [splitLines, hc, hcs]

theorem splitLines_joinLines :
    ∀ (ls : List Str), ls ≠ [] → (∀ l ∈ ls, '\n' ∉ l) →
    splitLines (joinLines ls) = ls := by
  intro ls
  induction ls with
  | nil => intro h; exact absurd rfl h
  | cons l ls ih =>
    intro _ h
    cases ls with
    | nil => exact splitLines_no_newline (h l (List.mem_cons_self l []))
    | cons l' ls' =>
      have : joinLines (l :: l' :: ls') = l ++ '\n' :: joinLines (l' :: ls') := rfl
      rw [this, splitLines_newline_append _ (h l (List.mem_cons_self _ _)),
        ih (by simp) fun x hx => h x (List.mem_cons_of_mem _ hx)]

theorem splitLines_ne_nil (s : Str) : splitLines s ≠ [] := by
  cases s with
  | nil => simp [splitLines]
  | cons c cs =>
    by_cases hc : c = '\n'
    · simp [splitLines, hc]
    · simp only [splitLines, if_neg hc]
      cases splitLines cs <;> simp

theorem mem_splitLines_no_newline : ∀ (s : Str), ∀ l ∈ splitLines s, '\n' ∉ l := by
  intro s
  induction s with
  | nil =>
    intro l hl
    simp [splitLines] at hl
    simp [hl]
  | cons c cs ih =>
    intro l hl
    by_cases hc : c = '\n'
    · simp only [splitLines, if_pos hc] at hl
      rcases List.mem_cons.mp hl with h | h
      · simp [h]
      · exact ih l h
    · simp only [splitLines, if_neg hc] at hl
      cases hsp : splitLines cs with
      | nil => exact absurd hsp (splitLines_ne_nil cs)
      | cons m ms =>
        rw [hsp] at hl
        rcases List.mem_cons.mp hl with h | h
        · subst h
          intro hmem
          rcases List.mem_cons.mp hmem with h2 | h2
          · exact hc h2.symm
          · exact ih m (hsp ▸ List.mem_cons_self m ms) h2
        · exact ih l (hsp ▸ List.mem_cons_of_mem m h)

theorem mem_trimSpace_subset (l : Str) : ∀ c ∈ trimSpace l, c ∈ l := by
  intro c hc
  unfold trimSpace trimLeft at hc
  rw [List.mem_reverse] at hc
  have h1 := (List.dropWhile_sublist _).subset hc
  rw [List.mem_reverse] at h1
  exact (List.dropWhile_sublist _).subset h1

theorem tocHeadings_no_newline (body : Str) : ∀ l ∈ tocHeadings body, '\n' ∉ l := by
  intro l hl
  unfold tocHeadings at hl
  have hl2 := List.mem_of_mem_filter hl
  rcases List.mem_map.mp hl2 with ⟨x, hx, hxe⟩
  intro hmem
  exact mem_splitLines_no_newline body x hx
    (mem_trimSpace_subset x '\n' (by rw [hxe]; exact hmem))

theorem tocLine_no_newline {l : Str} (h : '\n' ∉ l) : '\n' ∉ tocLine l := by
  unfold tocLine
  intro hmem
  rcases List.mem_append.mp hmem with h2 | h2
  · exact absurd (List.eq_of_mem_replicate h2) (by decide)
  · exact h h2


theorem lookupKey_cons {α : Type} (k a : Str) (b : α) (t : List (Str × α)) :
    lookupKey k ((a, b) :: t) = if a = k then some b else lookupKey k t := rfl

theorem upsert_cons {α : Type} (k2 a : Str) (v b : α) (t : List (Str × α)) :
    upsert k2 v ((a, b) :: t) =
      if a = k2 then (k2, v) :: t else (a, b) :: upsert k2 v t := rfl

theorem keysOf_cons {α : Type} (p : Str × α) (t : List (Str × α)) :
    keysOf (p :: t) = p.1 :: keysOf t := rfl

theorem lookupKey_upsert {α : Type} (k k2 : Str) (v : α) :
    ∀ (m : List (Str × α)),
    lookupKey k (upsert k2 v m) = if k2 = k then some v else lookupKey k m := by
  intro m
  induction m with
  | nil => rfl
  | cons p t ih =>
    obtain ⟨k3, v3⟩ := p
    rw [upsert_cons]
    by_cases h32 : k3 = k2
    · rw [if_pos h32, lookupKey_cons, lookupKey_cons]
      by_cases h2k : k2 = k
      · rw [if_pos h2k, if_pos h2k]
      · rw [if_neg h2k, if_neg h2k, if_neg (fun h => h2k (h32 ▸ h))]
    · rw [if_neg h32, lookupKey_cons, lookupKey_cons, ih]
      by_cases h3k : k3 = k
      · rw [if_pos h3k, if_neg (fun h => h32 (h3k.trans h.symm)), if_pos h3k]
      · rw [if_neg h3k, if_neg h3k]

theorem mem_keysOf_upsert {α : Type} (x k : Str) (v : α) :
    ∀ (m : List (Str × α)), x ∈ keysOf (upsert k v m) → x = k ∨ x ∈ keysOf m := by
  intro m
  induction m with
  | nil =>
    intro h
    rw [show upsert k v ([] : List (Str × α)) = [(k, v)] from rfl, keysOf_cons] at h
    rcases List.mem_cons.mp h with h | h
    · exact Or.inl h
    · exact absurd h (List.not_mem_nil x)
  | cons p t ih =>
    obtain ⟨k3, v3⟩ := p
    intro h
    rw [upsert_cons] at h
    by_cases h3 : k3 = k
    · rw [if_pos h3, keysOf_cons] at h
      rcases List.mem_cons.mp h with h | h
      · exact Or.inl h
      · exact Or.inr (by rw [keysOf_cons]; exact List.mem_cons_of_mem _ h)
    · rw [if_neg h3, keysOf_cons] at h
      rcases List.mem_cons.mp h with h | h
      · exact Or.inr (by rw [keysOf_cons]; exact h ▸ List.mem_cons_self _ _)
      · rcases ih h with h2 | h2
        · exact Or.inl h2
        · exact Or.inr (by rw [keysOf_cons]; exact List.mem_cons_of_mem _ h2)

theorem keysOf_upsert_nodup {α : Type} (k : Str) (v : α) :
    ∀ (m : List (Str × α)), (keysOf m).Nodup → (keysOf (upsert k v m)).Nodup := by
  intro m
  induction m with
  | nil =>
    intro _
    rw [show upsert k v ([] : List (Str × α)) = [(k, v)] from rfl]
    exact List.nodup_singleton k
  | cons p t ih =>
    obtain ⟨k3, v3⟩ := p
    intro h
    rw [keysOf_cons, List.nodup_cons] at h
    obtain ⟨hnm, hnd⟩ := h
    rw [upsert_cons]
    by_cases h3 : k3 = k
    · rw [if_pos h3, keysOf_cons, List.nodup_cons]
      exact ⟨h3 ▸ hnm, hnd⟩
    · rw [if_neg h3, keysOf_cons, List.nodup_cons]
      refine ⟨fun hmem => ?_, ih hnd⟩
      rcases mem_keysOf_upsert k3 k v t hmem with h2 | h2
      · exact h3 h2
      · exact hnm h2

theorem runEntries_cons {E α : Type} (g : E → Option (Str × α)) (e : E) (es : List E)
    (m : List (Str × α)) :
    runEntries g (e :: es) m =
      runEntries g es
        (match g e with
         | none => m
         | some (k, v) => upsert k v m) := rfl

theorem runEntries_nil {E α : Type} (g : E → Option (Str × α)) (m : List (Str × α)) :
    runEntries g [] m = m := rfl

theorem runEntries_cons_none {E α : Type} (g : E → Option (Str × α)) (e : E) (es : List E)
    (m : List (Str × α)) (h : g e = none) :
    runEntries g (e :: es) m = runEntries g es m := by
  rw [runEntries_cons, h]

theorem runEntries_cons_some {E α : Type} (g : E → Option (Str × α)) (e : E) (es : List E)
    (m : List (Str × α)) (k : Str) (v : α) (h : g e = some (k, v)) :
    runEntries g (e :: es) m = runEntries g es (upsert k v m) := by
  rw [runEntries_cons, h]

theorem runEntries_keys_nodup {E α : Type} (g : E → Option (Str × α)) :
    ∀ (es : List E) (m : List (Str × α)),
    (keysOf m).Nodup → (keysOf (runEntries g es m)).Nodup := by
  intro es
  induction es with
  | nil => intro m h; rw [runEntries_nil]; exact h
  | cons e es ih =>
    intro m h
    cases hge : g e with
    | none => rw [runEntries_cons_none g e es m hge]; exact ih m h
    | some p =>
      obtain ⟨k2, v⟩ := p
      rw [runEntries_cons_some g e es m k2 v hge]
      exact ih _ (keysOf_upsert_nodup k2 v m h)

theorem lookupKey_runEntries {E α : Type} (g : E → Option (Str × α)) (k : Str) :
    ∀ (es : List E) (m : List (Str × α)),
    lookupKey k (runEntries g es m) =
      (match lookupKey k (runEntries g es []) with
       | some v => some v
       | none => lookupKey k m) := by
  intro es
  induction es with
  | nil => intro m; rw [runEntries_nil, runEntries_nil]; rfl
  | cons e es ih =>
    intro m
    cases hge : g e with
    | none =>
      rw [runEntries_cons_none g e es m hge, runEntries_cons_none g e es [] hge]
      exact ih m
    | some p =>
      obtain ⟨k2, v⟩ := p
      rw [runEntries_cons_some g e es m k2 v hge, runEntries_cons_some g e es [] k2 v hge,
        ih (upsert k2 v m), ih (upsert k2 v [])]
      cases hA : lookupKey k (runEntries g es []) with
      | some w => rfl
      | none =>
        rw [lookupKey_upsert]
        rw [show upsert k2 v ([] : List (Str × α)) = [(k2, v)] from rfl, lookupKey_cons]
        by_cases hk : k2 = k
        · rw [if_pos hk, if_pos hk]
        · rw [if_neg hk, if_neg hk]; rfl

theorem lookupKey_runEntries_mono {E α : Type} (g : E → Option (Str × α)) (k : Str)
    (es : List E) (m : List (Str × α)) (h : lookupKey k m ≠ none) :
    lookupKey k (runEntries g es m) ≠ none := by
  rw [lookupKey_runEntries]
  cases hA : lookupKey k (runEntries g es []) with
  | some w => simp only []; exact fun hx => Option.noConfusion hx
  | none => exact h

theorem written_lookup_ne_none {E α : Type} (g : E → Option (Str × α)) (k : Str) :
    ∀ (es : List E) (m : List (Str × α)),
    (∃ e ∈ es, ∃ v, g e = some (k, v)) →
    lookupKey k (runEntries g es m) ≠ none := by
  intro es
  induction es with
  | nil =>
    intro m h
    rcases h with ⟨e, he, _⟩
    exact absurd he (List.not_mem_nil e)
  | cons e es ih =>
    intro m h
    rcases h with ⟨e2, he2, v, hgv⟩
    rcases List.mem_cons.mp he2 with h | h
    · subst h
      rw [runEntries_cons_some _ _ _ _ _ _ hgv]
      refine lookupKey_runEntries_mono g k es _ ?_
      rw [lookupKey_upsert, if_pos rfl]
      exact fun hx => Option.noConfusion hx
    · cases hge : g e with
      | none => rw [runEntries_cons_none g e es m hge]; exact ih m ⟨e2, h, v, hgv⟩
      | some p =>
        obtain ⟨k3, v3⟩ := p
        rw [runEntries_cons_some g e es m k3 v3 hge]
        exact ih _ ⟨e2, h, v, hgv⟩

theorem mem_of_lookupKey {α : Type} (k : Str) (v : α) :
    ∀ (m : List (Str × α)), lookupKey k m = some v → (k, v) ∈ m := by
  intro m
  induction m with
  | nil => intro h; exact absurd h (fun hx => Option.noConfusion hx)
  | cons p t ih =>
    obtain ⟨k2, v2⟩ := p
    intro h
    rw [lookupKey_cons] at h
    by_cases hk : k2 = k
    · rw [if_pos hk] at h
      have hv : v2 = v := Option.some.inj h
      subst hk; subst hv
      exact List.mem_cons_self _ _
    · rw [if_neg hk] at h
      exact List.mem_cons_of_mem _ (ih h)

theorem mem_upsert {α : Type} (p : Str × α) (k : Str) (v : α) :
    ∀ (m : List (Str × α)), p ∈ upsert k v m → p = (k, v) ∨ p ∈ m := by
  intro m
  induction m with
  | nil =>
    intro h
    rw [show upsert k v ([] : List (Str × α)) = [(k, v)] from rfl] at h
    rcases List.mem_cons.mp h with h | h
    · exact Or.inl h
    · exact absurd h (List.not_mem_nil p)
  | cons q t ih =>
    obtain ⟨k3, v3⟩ := q
    intro h
    rw [upsert_cons] at h
    by_cases h3 : k3 = k
    · rw [if_pos h3] at h
      rcases List.mem_cons.mp h with h | h
      · exact Or.inl h
      · exact Or.inr (List.mem_cons_of_mem _ h)
    · rw [if_neg h3] at h
      rcases List.mem_cons.mp h with h | h
      · exact Or.inr (h ▸ List.mem_cons_self _ _)
      · rcases ih h with h2 | h2
        · exact Or.inl h2
        · exact Or.inr (List.mem_cons_of_mem _ h2)

theorem mem_runEntries {E α : Type} (g : E → Option (Str × α)) :
    ∀ (es : List E) (m : List (Str × α)) (p : Str × α),
    p ∈ runEntries g es m → p ∈ m ∨ ∃ e ∈ es, g e = some p := by
  intro es
  induction es with
  | nil =>
    intro m p h
    rw [runEntries_nil] at h
    exact Or.inl h
  | cons e es ih =>
    intro m p h
    rw [runEntries_cons] at h
    cases hge : g e with
    | none =>
      rw [hge] at h
      rcases ih m p h with h2 | ⟨e2, he2, hg2⟩
      · exact Or.inl h2
      · exact Or.inr ⟨e2, List.mem_cons_of_mem _ he2, hg2⟩
    | some q =>
      obtain ⟨k2, v2⟩ := q
      rw [hge] at h
      rcases ih _ p h with h2 | ⟨e2, he2, hg2⟩
      · rcases mem_upsert p k2 v2 m h2 with h3 | h3
        · exact Or.inr ⟨e, List.mem_cons_self e es, by rw [hge, h3]⟩
        · exact Or.inl h3
      · exact Or.inr ⟨e2, List.mem_cons_of_mem _ he2, hg2⟩

theorem metaOutcome_inv (dir : Str) (src : SkillSource) (e : MetaEntry) (k : Str)
    (v : SkillMetadata) (h : metaOutcome dir src e = some (k, v)) :
    k = v.name ∧ v.source = src := by
  unfold metaOutcome at h
  by_cases hd : e.isDir = true
  · rw [if_pos hd] at h
    cases hp : e.parsed with
    | none => rw [hp] at h; exact absurd h (fun hx => Option.noConfusion hx)
    | some fm =>
      rw [hp] at h
      have h3 := Option.some.inj h
      rw [Prod.mk.injEq] at h3
      obtain ⟨h1, h2⟩ := h3
      subst h1
      subst h2
      exact ⟨rfl, rfl⟩
  · rw [if_neg hd] at h
    exact absurd h (fun hx => Option.noConfusion hx)

theorem skillOutcome_inv (dir : Str) (src : SkillSource) (e : SkillEntry) (k : Str)
    (v : Skill) (h : skillOutcome dir src e = some (k, v)) :
    k = v.name ∧ v.source = src := by
  unfold skillOutcome at h
  by_cases hd : e.isDir = true
  · rw [if_pos hd] at h
    cases hp : e.loaded with
    | none => rw [hp] at h; exact absurd h (fun hx => Option.noConfusion hx)
    | some r =>
      obtain ⟨fm, body⟩ := r
      rw [hp] at h
      have h3 := Option.some.inj h
      rw [Prod.mk.injEq] at h3
      obtain ⟨h1, h2⟩ := h3
      subst h1
      subst h2
      exact ⟨rfl, rfl⟩
  · rw [if_neg hd] at h
    exact absurd h (fun hx => Option.noConfusion hx)

theorem runEntries_pairs_fst {E β : Type} (g : E → Option (Str × β)) (nameFn : β → Str)
    (hg : ∀ e k v, g e = some (k, v) → k = nameFn v) :
    ∀ (es : List E) (m : List (Str × β)), (∀ p ∈ m, p.1 = nameFn p.2) →
    ∀ p ∈ runEntries g es m, p.1 = nameFn p.2 := by
  intro es m hm p hp
  rcases mem_runEntries g es m p hp with h | ⟨e, _, hge⟩
  · exact hm p h
  · exact hg e p.1 p.2 (by rw [hge, Prod.mk.eta])

theorem map_name_eq_keys {β : Type} (nameFn : β → Str) :
    ∀ (m : List (Str × β)), (∀ p ∈ m, p.1 = nameFn p.2) →
    (m.map (·.2)).map nameFn = keysOf m := by
  intro m
  induction m with
  | nil => intro _; rfl
  | cons p t ih =>
    intro h
    rw [List.map_cons, List.map_cons, keysOf_cons,
      ih fun q hq => h q (List.mem_cons_of_mem p hq)]
    rw [(h p (List.mem_cons_self p t)).symm]

theorem precedence_generic {E β : Type} (gp gg : E → Option (Str × β))
    (pe ge : List E) (n : Str)
    (hw : ∃ e ∈ pe, ∃ v, gp e = some (n, v)) :
    ∃ v, lookupKey n (runEntries gp pe (runEntries gg ge [])) = some v ∧
      lookupKey n (runEntries gp pe []) = some v ∧ (n, v) ∈ runEntries gp pe [] := by
  have hPn : lookupKey n (runEntries gp pe []) ≠ none :=
    written_lookup_ne_none gp n pe [] hw
  rcases Option.ne_none_iff_exists'.mp hPn with ⟨v, hv⟩
  refine ⟨v, ?_, hv, mem_of_lookupKey n v _ hv⟩
  rw [lookupKey_runEntries gp n pe (runEntries gg ge []), hv]

/-- Claim C1 (corrected), counterexample: in the body
`"# A\nx\n# A\ny\n# B"` with section name `"A"`, the claim's rule — stop
exclusively at the first subsequent heading of level ≤ L — would return
`"# A\nx"`, because the second `# A` is a level-1 heading; the code instead
re-matches it and returns `"# A\nx\n# A\ny"`. -/
theorem c1_section_extraction_counterexample :
    ExtractSection "# A\nx\n# A\ny\n# B".data "A".data = "# A\nx\n# A\ny".data ∧
    claimExtractSection "# A\nx\n# A\ny\n# B".data "A".data = "# A\nx".data ∧
    ExtractSection "# A\nx\n# A\ny\n# B".data "A".data ≠
      claimExtractSection "# A\nx\n# A\ny\n# B".data "A".data :=
  ⟨by decide, by decide, by decide⟩

/-- Claim C1 (amended): `ExtractSection` case-insensitively matches a
heading's trimmed label, captures from the first matching heading onward
including all lines and deeper non-matching headings, and stops exclusively
at the first subsequent non-matching heading of level at most the current
section level — where a subsequent heading whose label also matches the
requested name does not terminate the span but is captured and resets the
section level to its own; the result is empty when no heading matches and
is trimmed of surrounding whitespace. This is exactly
`specExtractSection`. -/
theorem c1_section_extraction_amended :
    ∀ (body heading : Str),
      ExtractSection body heading = specExtractSection body heading ∧
      (findMatch heading (splitLines body) = none → ExtractSection body heading = []) := by
  intro body heading
  refine ⟨extractSection_eq_spec body heading, fun h => ?_⟩
  rw [extractSection_eq_spec]
  unfold specExtractSection
  simp only [h]

theorem c1_section_extraction_amended_witness :
    ExtractSection "x\ny".data "A".data = [] :=
  (c1_section_extraction_amended "x\ny".data "A".data).2 (by decide)

/-- Claim C2 (confirmed, spec-modelled): for every body, the outline has
exactly one line per heading line of level 1–6, in document order, each
being the heading with its markup indented by 2 × (level − 1) spaces
(`tocLine`), the result is empty when there are no headings, and the body
`"# A\n## B\n### C\n## D"` yields `"# A\n  ## B\n    ### C\n  ## D"`. -/
theorem c2_outline_extraction :
    (∀ body : Str,
      (tocHeadings body = [] → ExtractTOC body = []) ∧
      (tocHeadings body ≠ [] →
        splitLines (ExtractTOC body) = (tocHeadings body).map tocLine ∧
        (splitLines (ExtractTOC body)).length = (tocHeadings body).length)) ∧
    ExtractTOC "# A\n## B\n### C\n## D".data = "# A\n  ## B\n    ### C\n  ## D".data := by
  constructor
  · intro body
    constructor
    · intro h
      unfold ExtractTOC
      rw [h]
      rfl
    · intro h
      have hnl : ∀ l ∈ (tocHeadings body).map tocLine, '\n' ∉ l := by
        intro l hl
        rcases List.mem_map.mp hl with ⟨x, hx, hxe⟩
        exact hxe ▸ tocLine_no_newline (tocHeadings_no_newline body x hx)
      have hne : (tocHeadings body).map tocLine ≠ [] := by
        intro h2
        exact h (List.map_eq_nil_iff.mp h2)
      have hsj := splitLines_joinLines ((tocHeadings body).map tocLine) hne hnl
      unfold ExtractTOC
      exact ⟨hsj, by rw [hsj, List.length_map]⟩
  · decide

theorem c2_outline_extraction_witness :
    ExtractTOC "no headings here".data = [] ∧
    splitLines (ExtractTOC "# A\n## B".data) = (tocHeadings "# A\n## B".data).map tocLine :=
  ⟨(c2_outline_extraction.1 "no headings here".data).1 (by decide),
    ((c2_outline_extraction.1 "# A\n## B".data).2 (by decide)).1⟩

/-- Claim C10 (confirmed): `ExtractSection` recognises a line as a heading
only when its very first character is `#`. First part: if no line whose
first character is `#` matches the requested name, the result is empty —
even when an indented line would trim to a matching heading. Second part:
once a heading of level ≤ 6 is matched, neither indented lines (which are
not headings, whatever their trimmed shape) nor lines starting with seven
or more `#` (headings at their literal depth ≥ 7) terminate the section, so
the whole remainder is captured. -/
theorem c10_heading_recognition :
    (∀ (body heading : Str),
      (∀ l ∈ splitLines body, isHeading l = true → eqFold (headingText l) heading = false) →
      ExtractSection body heading = []) ∧
    (∀ (hline : Str) (rest : List Str) (heading : Str),
      '\n' ∉ hline → (∀ l ∈ rest, '\n' ∉ l) →
      isHeading hline = true → eqFold (headingText hline) heading = true →
      headingLevel hline ≤ 6 →
      (∀ l ∈ rest, isHeading l = true →
        eqFold (headingText l) heading = false ∧ 7 ≤ headingLevel l) →
      ExtractSection (joinLines (hline :: rest)) heading =
        trimSpace (joinLines (hline :: rest))) := by
  constructor
  · intro body heading h
    rw [extractSection_eq_spec]
    unfold specExtractSection
    simp only [findMatch_eq_none heading _ h]
  · intro hline rest heading hnl hnls hh hm hlvl hrest
    have hsplit : splitLines (joinLines (hline :: rest)) = hline :: rest := by
      refine splitLines_joinLines (hline :: rest) (by simp) ?_
      intro l hl
      rcases List.mem_cons.mp hl with h | h
      · exact h ▸ hnl
      · exact hnls l h
    have hfm : findMatch heading (hline :: rest) = some (hline, rest) := by
      unfold findMatch
      rw [if_pos hh, if_pos hm]
    rw [extractSection_eq_spec]
    unfold specExtractSection
    rw [hsplit]
    simp only [hfm]
    rw [captureGo_all heading rest (headingLevel hline)
      (fun l hl hhl => ⟨(hrest l hl hhl).1, by have := (hrest l hl hhl).2; omega⟩)]

theorem c10_heading_recognition_witness :
    ExtractSection "  # A\nx".data "A".data = [] ∧
    ExtractSection (joinLines ["# A".data, "x".data, "  # A".data, "####### B".data])
        "A".data
      = trimSpace (joinLines ["# A".data, "x".data, "  # A".data, "####### B".data]) :=
  ⟨c10_heading_recognition.1 "  # A\nx".data "A".data (by decide),
    c10_heading_recognition.2 "# A".data ["x".data, "  # A".data, "####### B".data]
      "A".data (by decide) (by decide) (by decide) (by decide) (by decide) (by decide)⟩

/-- Claim C3 (confirmed): after `LoadAll` or `LoadMetadataOnly` over a
global and a project root, every skill name appears exactly once in the
result; and whenever both roots contain a valid skill with the same name,
the resulting entry for that name is the project-root version: it carries
the project source tag, and the merged map's entry for that name is exactly
the entry the project root alone produces. -/
theorem c3_merge_uniqueness_precedence :
    ∀ (gd pd : Str) (ge pe : List MetaEntry) (gs ps : List SkillEntry),
    ((LoadMetadataOnly gd pd ge pe).map SkillMetadata.name).Nodup ∧
    ((LoadAll gd pd gs ps).map Skill.name).Nodup ∧
    (∀ n : Str,
      (∃ e ∈ ge, e.isDir = true ∧ ∃ fm, e.parsed = some fm ∧ fm.name = n) →
      (∃ e ∈ pe, e.isDir = true ∧ ∃ fm, e.parsed = some fm ∧ fm.name = n) →
      ∃ v : SkillMetadata, v ∈ LoadMetadataOnly gd pd ge pe ∧ v.name = n ∧
        v.source = .project ∧
        lookupKey n (loadMetadataFromDir pd .project pe
            (loadMetadataFromDir gd .global ge [])) =
          lookupKey n (loadMetadataFromDir pd .project pe []) ∧
        lookupKey n (loadMetadataFromDir pd .project pe []) = some v) ∧
    (∀ n : Str,
      (∃ e ∈ gs, e.isDir = true ∧ ∃ r, e.loaded = some r ∧ r.1.name = n) →
      (∃ e ∈ ps, e.isDir = true ∧ ∃ r, e.loaded = some r ∧ r.1.name = n) →
      ∃ v : Skill, v ∈ LoadAll gd pd gs ps ∧ v.name = n ∧ v.source = .project ∧
        lookupKey n (runEntries (skillOutcome pd .project) ps
            (runEntries (skillOutcome gd .global) gs [])) =
          lookupKey n (runEntries (skillOutcome pd .project) ps [])) := by
  intro gd pd ge pe gs ps
  refine ⟨?_, ?_, ?_, ?_⟩
  · show (((runEntries (metaOutcome pd .project) pe
        (runEntries (metaOutcome gd .global) ge [])).map (·.2)).map SkillMetadata.name).Nodup
    have hinvG := runEntries_pairs_fst (metaOutcome gd .global) SkillMetadata.name
      (fun e k v h => (metaOutcome_inv gd .global e k v h).1) ge []
      (fun p hp => absurd hp (List.not_mem_nil p))
    have hinv := runEntries_pairs_fst (metaOutcome pd .project) SkillMetadata.name
      (fun e k v h => (metaOutcome_inv pd .project e k v h).1) pe _ hinvG
    rw [map_name_eq_keys SkillMetadata.name _ hinv]
    exact runEntries_keys_nodup _ pe _ (runEntries_keys_nodup _ ge [] List.nodup_nil)
  · show (((runEntries (skillOutcome pd .project) ps
        (runEntries (skillOutcome gd .global) gs [])).map (·.2)).map Skill.name).Nodup
    have hinvG := runEntries_pairs_fst (skillOutcome gd .global) Skill.name
      (fun e k v h => (skillOutcome_inv gd .global e k v h).1) gs []
      (fun p hp => absurd hp (List.not_mem_nil p))
    have hinv := runEntries_pairs_fst (skillOutcome pd .project) Skill.name
      (fun e k v h => (skillOutcome_inv pd .project e k v h).1) ps _ hinvG
    rw [map_name_eq_keys Skill.name _ hinv]
    exact runEntries_keys_nodup _ ps _ (runEntries_keys_nodup _ gs [] List.nodup_nil)
  · intro n _ hp
    rcases hp with ⟨e, he, hd, fm, hpar, hname⟩
    have hout : metaOutcome pd .project e =
        some (fm.name, ⟨fm.name, fm.description, .project, pd ++ '/' :: e.dirName⟩) := by
      unfold metaOutcome
      rw [if_pos hd, hpar]
    rw [hname] at hout
    have hw : ∃ e2 ∈ pe, ∃ v, metaOutcome pd .project e2 = some (n, v) :=
      ⟨e, he, _, hout⟩
    rcases precedence_generic (metaOutcome pd .project) (metaOutcome gd .global) pe ge n hw
      with ⟨v, hM, hP, hmem⟩
    rcases mem_runEntries (metaOutcome pd .project) pe [] (n, v) hmem with h0 | ⟨e2, _, hge2⟩
    · exact absurd h0 (List.not_mem_nil _)
    · obtain ⟨hn, hs⟩ := metaOutcome_inv pd .project e2 n v hge2
      refine ⟨v, ?_, hn.symm, hs, hM.trans hP.symm, hP⟩
      show v ∈ (runEntries (metaOutcome pd .project) pe
        (runEntries (metaOutcome gd .global) ge [])).map (·.2)
      exact List.mem_map.mpr ⟨(n, v), mem_of_lookupKey n v _ hM, rfl⟩
  · intro n _ hp
    rcases hp with ⟨e, he, hd, r, hload, hname⟩
    obtain ⟨fm, body⟩ := r
    have hname2 : fm.name = n := hname
    have hout : skillOutcome pd .project e =
        some (fm.name, ⟨fm.name, fm.description, pd ++ '/' :: e.dirName, body, .project⟩) := by
      unfold skillOutcome
      rw [if_pos hd, hload]
    rw [hname2] at hout
    have hw : ∃ e2 ∈ ps, ∃ v, skillOutcome pd .project e2 = some (n, v) :=
      ⟨e, he, _, hout⟩
    rcases precedence_generic (skillOutcome pd .project) (skillOutcome gd .global) ps gs n hw
      with ⟨v, hM, hP, hmem⟩
    rcases mem_runEntries (skillOutcome pd .project) ps [] (n, v) hmem with h0 | ⟨e2, _, hge2⟩
    · exact absurd h0 (List.not_mem_nil _)
    · obtain ⟨hn, hs⟩ := skillOutcome_inv pd .project e2 n v hge2
      refine ⟨v, ?_, hn.symm, hs, hM.trans hP.symm⟩
      show v ∈ (runEntries (skillOutcome pd .project) ps
        (runEntries (skillOutcome gd .global) gs [])).map (·.2)
      exact List.mem_map.mpr ⟨(n, v), mem_of_lookupKey n v _ hM, rfl⟩

theorem c3_merge_uniqueness_precedence_witness :
    (∃ v : SkillMetadata,
      v ∈ LoadMetadataOnly "g".data "p".data
        [⟨true, "d".data, some ⟨"n".data, "G".data⟩⟩]
        [⟨true, "d".data, some ⟨"n".data, "P".data⟩⟩] ∧
      v.name = "n".data ∧ v.source = .project) ∧
    (∃ v : Skill,
      v ∈ LoadAll "g".data "p".data
        [⟨true, "d".data, some (⟨"n".data, "G".data⟩, "bg".data)⟩]
        [⟨true, "d".data, some (⟨"n".data, "P".data⟩, "bp".data)⟩] ∧
      v.name = "n".data ∧ v.source = .project) := by
  constructor
  · rcases (c3_merge_uniqueness_precedence "g".data "p".data
        [⟨true, "d".data, some ⟨"n".data, "G".data⟩⟩]
        [⟨true, "d".data, some ⟨"n".data, "P".data⟩⟩] [] []).2.2.1 "n".data
      ⟨_, List.mem_cons_self _ _, rfl, ⟨"n".data, "G".data⟩, rfl, rfl⟩
      ⟨_, List.mem_cons_self _ _, rfl, ⟨"n".data, "P".data⟩, rfl, rfl⟩
      with ⟨v, hv1, hv2, hv3, _, _⟩
    exact ⟨v, hv1, hv2, hv3⟩
  · rcases (c3_merge_uniqueness_precedence "g".data "p".data [] []
        [⟨true, "d".data, some (⟨"n".data, "G".data⟩, "bg".data)⟩]
        [⟨true, "d".data, some (⟨"n".data, "P".data⟩, "bp".data)⟩]).2.2.2 "n".data
      ⟨_, List.mem_cons_self _ _, rfl, (⟨"n".data, "G".data⟩, "bg".data), rfl, rfl⟩
      ⟨_, List.mem_cons_self _ _, rfl, (⟨"n".data, "P".data⟩, "bp".data), rfl, rfl⟩
      with ⟨v, hv1, hv2, hv3, _⟩
    exact ⟨v, hv1, hv2, hv3⟩


theorem findDelim_none :
    ∀ (ls : List Str), numDelimLines ls = 0 → findDelim ls = none := by
  intro ls
  induction ls with
  | nil => intro _; rfl
  | cons l ls ih =>
    intro h
    unfold numDelimLines at h
    by_cases hdl : trimSpace l = delim
    · rw [if_pos hdl] at h
      omega
    · rw [if_neg hdl, Nat.zero_add] at h
      unfold findDelim
      rw [if_neg hdl, ih h]
      rfl

theorem findDelims_none :
    ∀ (ls : List Str), numDelimLines ls ≤ 1 → findDelims ls = none := by
  intro ls
  induction ls with
  | nil => intro _; rfl
  | cons l ls ih =>
    intro h
    unfold numDelimLines at h
    by_cases hdl : trimSpace l = delim
    · rw [if_pos hdl] at h
      have hcount : numDelimLines ls = 0 := by omega
      have h1 : findDelim (l :: ls) = some 0 := by
        unfold findDelim
        rw [if_pos hdl]
      simp only [findDelims, h1, List.drop_succ_cons, List.drop_zero,
        findDelim_none ls hcount]
    · rw [if_neg hdl, Nat.zero_add] at h
      cases hfd : findDelim ls with
      | none =>
        have h2 : findDelim (l :: ls) = none := by
          unfold findDelim
          rw [if_neg hdl, hfd]
          rfl
        simp only [findDelims, h2]
      | some i =>
        have hih := ih h
        have h3 : findDelim (ls.drop (i + 1)) = none := by
          simp only [findDelims, hfd] at hih
          cases h4 : findDelim (ls.drop (i + 1)) with
          | none => rfl
          | some j => rw [h4] at hih; exact Option.noConfusion hih
        have h2 : findDelim (l :: ls) = some (i + 1) := by
          unfold findDelim
          rw [if_neg hdl, hfd]
          rfl
        simp only [findDelims, h2, List.drop_succ_cons, h3]

/-- Claim C4 (amended): `Parse` fails with an `InvalidFormat` error unless
the trimmed document starts with the three characters `---` (a byte-prefix
check; the first line need not be exactly `---`), and when the prefix check
passes but fewer than two lines of the document trim to exactly `---`
(i.e. the first delimiter line — wherever it occurs — is never followed by
a closing one), `Parse` fails with the missing-closing-delimiter
`InvalidFormat` error. -/
theorem c4_frontmatter_delimiters :
    ∀ (yaml : Str → Option Frontmatter) (data : Str),
      (strLeads (trimSpace data) delim = false →
        Parse yaml data = .error .invalidFrontmatter ∧
        ParseErr.invalidFrontmatter.isInvalidFormat = true) ∧
      (strLeads (trimSpace data) delim = true →
        numDelimLines (splitLines data) ≤ 1 →
        Parse yaml data = .error .missingClosing ∧
        ParseErr.missingClosing.isInvalidFormat = true) := by
  intro yaml data
  constructor
  · intro h
    refine ⟨?_, rfl⟩
    simp [Parse, splitFrontmatter, h]
  · intro h hcount
    refine ⟨?_, rfl⟩
    have hfd := findDelims_none (splitLines data) hcount
    simp [Parse, splitFrontmatter, h, hfd]

theorem c4_frontmatter_delimiters_witness :
    Parse (fun _ => none) "xyz".data = .error .invalidFrontmatter ∧
    Parse (fun _ => none) "---\nname".data = .error .missingClosing :=
  ⟨((c4_frontmatter_delimiters (fun _ => none) "xyz".data).1 (by decide)).1,
    ((c4_frontmatter_delimiters (fun _ => none) "---\nname".data).2
      (by decide) (by decide)).1⟩

/-- Claim C4 (corrected), counterexample: the document
`"--- x\n---\nname\n---\nbody"` does not begin with a line that is exactly
`---` (its first line is `--- x`), yet the prefix check passes and the scan
finds two later delimiter lines, so `splitFrontmatter` succeeds and `Parse`
does not fail with `InvalidFormat` (with a YAML deserializer that accepts
the header, `Parse` succeeds outright). -/
theorem c4_frontmatter_delimiters_counterexample :
    firstLineIsDelim "--- x\n---\nname\n---\nbody".data = false ∧
    splitFrontmatter "--- x\n---\nname\n---\nbody".data =
      .ok ("name".data, "body".data) ∧
    ¬ ParseAlwaysInvalidFormat "--- x\n---\nname\n---\nbody".data := by
  refine ⟨by decide, by rfl, ?_⟩
  intro hall
  rcases hall (fun _ => some ⟨"a".data, "b".data⟩) with ⟨e, he, _⟩
  have hok : Parse (fun _ => some ⟨"a".data, "b".data⟩) "--- x\n---\nname\n---\nbody".data
      = .ok (⟨"a".data, "b".data⟩, "body".data) := by rfl
  rw [hok] at he
  exact Except.noConfusion he


theorem metadataLoop_capture_ok :
    ∀ (ls : List Str) (cnt : Nat) (acc : List Str),
    (∀ l ∈ ls, trimSpace l ≠ delim) → cnt + ls.length ≤ 100 →
    metadataLoop ls true cnt acc = .ok (acc ++ ls) := by
  intro ls
  induction ls with
  | nil => intro cnt acc _ _; simp [metadataLoop]
  | cons l ls ih =>
    intro cnt acc h hlen
    have hd := h l (List.mem_cons_self l ls)
    rw [List.length_cons] at hlen
    simp only [metadataLoop]
    rw [if_neg hd, if_neg (by omega : ¬ 100 < cnt + 1)]
    show metadataLoop ls true (cnt + 1) (acc ++ [l]) = Except.ok (acc ++ l :: ls)
    rw [ih (cnt + 1) (acc ++ [l]) (fun x hx => h x (List.mem_cons_of_mem l hx)) (by omega),
      List.append_assoc]
    rfl

theorem metadataLoop_search :
    ∀ (pre : List Str) (rest : List Str) (cnt : Nat) (acc : List Str),
    (∀ l ∈ pre, trimSpace l ≠ delim) → cnt + pre.length ≤ 100 →
    metadataLoop (pre ++ rest) false cnt acc =
      metadataLoop rest false (cnt + pre.length) acc := by
  intro pre
  induction pre with
  | nil => intro rest cnt acc _ _; simp
  | cons l pre ih =>
    intro rest cnt acc h hlen
    have hd := h l (List.mem_cons_self l pre)
    rw [List.length_cons] at hlen
    rw [List.cons_append]
    simp only [metadataLoop]
    rw [if_neg hd, if_neg (by omega : ¬ 100 < cnt + 1)]
    show metadataLoop (pre ++ rest) false (cnt + 1) acc =
      metadataLoop rest false (cnt + (l :: pre).length) acc
    rw [ih rest (cnt + 1) acc (fun x hx => h x (List.mem_cons_of_mem l hx)) (by omega)]
    rw [List.length_cons]
    have harith : cnt + 1 + pre.length = cnt + (pre.length + 1) := by omega
    rw [harith]

theorem metadataLoop_overflow :
    ∀ (ls : List Str) (b : Bool) (cnt : Nat) (acc : List Str),
    cnt ≤ 100 → (∀ l ∈ ls.take (101 - cnt), trimSpace l ≠ delim) →
    101 ≤ cnt + ls.length →
    metadataLoop ls b cnt acc = .error .frontmatterTooLong := by
  intro ls
  induction ls with
  | nil =>
    intro b cnt acc hc _ hlen
    rw [List.length_nil] at hlen
    omega
  | cons l ls ih =>
    intro b cnt acc hc htake hlen
    have h101 : 101 - cnt = (100 - cnt) + 1 := by omega
    have hd : trimSpace l ≠ delim := by
      apply htake
      rw [h101, List.take_succ_cons]
      exact List.mem_cons_self _ _
    simp only [metadataLoop]
    rw [if_neg hd]
    by_cases hg : 100 < cnt + 1
    · rw [if_pos hg]
    · rw [if_neg hg]
      apply ih b (cnt + 1) _ (by omega) ?_ ?_
      · intro x hx
        apply htake
        rw [h101, List.take_succ_cons]
        apply List.mem_cons_of_mem
        have hk : 101 - (cnt + 1) = 100 - cnt := by omega
        rw [hk] at hx
        exact hx
      · rw [List.length_cons] at hlen
        omega

theorem metadataLoop_step101 :
    ∀ (l : Str) (ls : List Str) (b : Bool) (cnt : Nat) (acc : List Str),
    trimSpace l ≠ delim → 100 ≤ cnt →
    metadataLoop (l :: ls) b cnt acc = .error .frontmatterTooLong := by
  intro l ls b cnt acc hd hc
  simp only [metadataLoop]
  rw [if_neg hd, if_pos (by omega : 100 < cnt + 1)]

/-- Claim C5 (amended): in the metadata-only parser the malformed-document
guard counts all scanned lines, not only lines after the opening delimiter,
and the opening-delimiter line itself bypasses the count check. If at least
100 lines follow the opening delimiter with no closing delimiter among the
first 100 of them, the parse fails with the frontmatter-too-long
`InvalidFormat` error (possibly having tripped even earlier when lines
precede the opener). But a document whose opening delimiter is never closed
is NOT rejected when the input ends within the 100-line guard: all
remaining lines become the frontmatter block, which then proceeds to YAML
parsing and validation. -/
theorem c5_metadata_guard :
    ∀ (yaml : Str → Option Frontmatter) (content : Str) (pre : List Str) (dl : Str)
      (rest : List Str),
      scanLines content = pre ++ dl :: rest →
      (∀ l ∈ pre, trimSpace l ≠ delim) → trimSpace dl = delim →
      ((∀ l ∈ rest.take 100, trimSpace l ≠ delim) → 100 ≤ rest.length →
        ParseMetadataOnly yaml content = .error .frontmatterTooLong) ∧
      ((∀ l ∈ rest, trimSpace l ≠ delim) → pre.length + 1 + rest.length ≤ 100 →
        rest ≠ [] → metadataBlock content = .ok rest) := by
  intro yaml content pre dl rest hscan hpre hdl
  constructor
  · intro hrest hlen
    have hloop : metadataLoop (scanLines content) false 0 [] =
        .error .frontmatterTooLong := by
      rw [hscan]
      by_cases hp : pre.length ≤ 100
      · rw [metadataLoop_search pre (dl :: rest) 0 [] hpre (by omega)]
        have hstep : metadataLoop (dl :: rest) false (0 + pre.length) [] =
            metadataLoop rest true (0 + pre.length + 1) [] := by
          simp only [metadataLoop]
          rw [if_pos hdl]
          rfl
        rw [hstep]
        by_cases hp2 : pre.length + 1 ≤ 100
        · apply metadataLoop_overflow rest true (0 + pre.length + 1) [] (by omega) ?_
            (by omega)
          intro x hx
          apply hrest
          have heq : rest.take (101 - (0 + pre.length + 1)) =
              (rest.take 100).take (101 - (0 + pre.length + 1)) := by
            rw [List.take_take]
            congr 1
            omega
          rw [heq] at hx
          exact List.take_subset _ _ hx
        · cases rest with
          | nil => rw [List.length_nil] at hlen; omega
          | cons r rest2 =>
            have hr : trimSpace r ≠ delim := by
              apply hrest
              rw [show (100 : Nat) = 99 + 1 from rfl, List.take_succ_cons]
              exact List.mem_cons_self _ _
            exact metadataLoop_step101 r rest2 true (0 + pre.length + 1) [] hr (by omega)
      · apply metadataLoop_overflow (pre ++ dl :: rest) false 0 [] (by omega) ?_ ?_
        · intro x hx
          apply hpre
          have heq : (pre ++ dl :: rest).take (101 - 0) = pre.take 101 := by
            rw [List.take_append_of_le_length (by omega)]
          rw [heq] at hx
          exact List.take_subset _ _ hx
        · rw [List.length_append, List.length_cons]
          omega
    simp only [ParseMetadataOnly, metadataBlock, hloop]
  · intro hrest hlen hne
    have hloop : metadataLoop (scanLines content) false 0 [] = .ok rest := by
      rw [hscan, metadataLoop_search pre (dl :: rest) 0 [] hpre (by omega)]
      have hstep : metadataLoop (dl :: rest) false (0 + pre.length) [] =
          metadataLoop rest true (0 + pre.length + 1) [] := by
        simp only [metadataLoop]
        rw [if_pos hdl]
        rfl
      rw [hstep, metadataLoop_capture_ok rest (0 + pre.length + 1) [] hrest (by omega),
        List.nil_append]
    unfold metadataBlock
    rw [hloop]
    cases rest with
    | nil => exact absurd rfl hne
    | cons r t => rfl

theorem c5_metadata_guard_witness :
    ParseMetadataOnly (fun _ => none)
        (joinLines ("---".data :: List.replicate 100 ['x']))
      = .error .frontmatterTooLong ∧
    metadataBlock (joinLines ["---".data, "a: b".data]) = .ok ["a: b".data] :=
  ⟨(c5_metadata_guard (fun _ => none)
      (joinLines ("---".data :: List.replicate 100 ['x']))
      [] "---".data (List.replicate 100 ['x'])
      (by decide) (fun l hl => absurd hl (List.not_mem_nil l)) (by decide)).1
      (by decide) (by decide),
    (c5_metadata_guard (fun _ => none) (joinLines ["---".data, "a: b".data])
      [] "---".data ["a: b".data]
      (by decide) (fun l hl => absurd hl (List.not_mem_nil l)) (by decide)).2
      (by decide) (by decide) (by decide)⟩

/-- Claim C5 (corrected), counterexample: the document
`"---\nname: a\ndescription: b"` has an opening delimiter that is never
closed (exactly one delimiter line), yet the metadata-only path does not
reject it as `InvalidFormat`: the remaining lines become the frontmatter
block, and with a YAML deserializer accepting them the parse succeeds. -/
theorem c5_metadata_guard_counterexample :
    metadataBlock "---\nname: a\ndescription: b".data =
      .ok ["name: a".data, "description: b".data] ∧
    numDelimLines (scanLines "---\nname: a\ndescription: b".data) = 1 ∧
    ParseMetadataOnly (fun _ => some ⟨"a".data, "b".data⟩)
        "---\nname: a\ndescription: b".data = .ok ⟨"a".data, "b".data⟩ :=
  ⟨by rfl, by decide, by rfl⟩

theorem foldl_score_add {α : Type} (p : α → Bool) (k : Nat) :
    ∀ (l : List α) (init : Nat),
    l.foldl (fun sc w => if p w then sc + k else sc) init =
      init + k * countMatches p l := by
  intro l
  induction l with
  | nil => intro init; simp [countMatches]
  | cons w l ih =>
    intro init
    rw [List.foldl_cons]
    simp only [countMatches]
    by_cases hp : p w = true
    · rw [if_pos hp, if_pos hp, ih]
      ring
    · rw [if_neg hp, if_neg hp, ih]
      ring

theorem calculateMatchScore_eq_specScore (q : Str) (m : SkillMetadata) :
    calculateMatchScore q m = specScore q m := by
  unfold calculateMatchScore specScore
  rw [foldl_score_add, foldl_score_add]
  simp only [Nat.zero_add, Nat.one_mul]

theorem le_foldl_max (q : Str) :
    ∀ (ms : List SkillMetadata) (init : Nat),
    init ≤ ms.foldl (fun a m => max a (calculateMatchScore q m)) init := by
  intro ms
  induction ms with
  | nil => intro init; exact Nat.le_refl init
  | cons m ms ih =>
    intro init
    rw [List.foldl_cons]
    exact Nat.le_trans (Nat.le_max_left init _) (ih _)

theorem findBestAux_snd (q : Str) :
    ∀ (ms : List SkillMetadata) (best : Option SkillMetadata) (sc : Nat),
    (findBestAux q ms best sc).2 =
      ms.foldl (fun a m => max a (calculateMatchScore q m)) sc := by
  intro ms
  induction ms with
  | nil => intro best sc; rfl
  | cons m ms ih =>
    intro best sc
    rw [List.foldl_cons]
    simp only [findBestAux]
    by_cases hlt : sc < calculateMatchScore q m
    · rw [if_pos hlt, ih, Nat.max_eq_right (Nat.le_of_lt hlt)]
    · rw [if_neg hlt, ih, Nat.max_eq_left (Nat.le_of_not_lt hlt)]

theorem findBestAux_fst (q : Str) :
    ∀ (ms : List SkillMetadata) (best : Option SkillMetadata) (sc : Nat),
    (findBestAux q ms best sc).1 =
      (if sc < ms.foldl (fun a m => max a (calculateMatchScore q m)) sc then
        ms.find? (fun m => calculateMatchScore q m ==
          ms.foldl (fun a m2 => max a (calculateMatchScore q m2)) sc)
      else best) := by
  intro ms
  induction ms with
  | nil =>
    intro best sc
    simp [findBestAux]
  | cons m ms ih =>
    intro best sc
    by_cases hlt : sc < calculateMatchScore q m
    · have hmax : max sc (calculateMatchScore q m) = calculateMatchScore q m :=
        Nat.max_eq_right (Nat.le_of_lt hlt)
      simp only [findBestAux, List.foldl_cons]
      rw [if_pos hlt, hmax, ih (some m) (calculateMatchScore q m)]
      have hle := le_foldl_max q ms (calculateMatchScore q m)
      generalize hF : ms.foldl (fun a m2 => max a (calculateMatchScore q m2))
        (calculateMatchScore q m) = F at hle ⊢
      have hscF : sc < F := Nat.lt_of_lt_of_le hlt hle
      rw [if_pos hscF]
      by_cases he : calculateMatchScore q m = F
      · rw [if_neg (by omega : ¬ calculateMatchScore q m < F)]
        rw [List.find?_cons_of_pos _ (by simp [he])]
      · have hlt2 : calculateMatchScore q m < F := Nat.lt_of_le_of_ne hle he
        rw [if_pos hlt2, List.find?_cons_of_neg _ (by simp [he])]
    · have hmax : max sc (calculateMatchScore q m) = sc :=
        Nat.max_eq_left (Nat.le_of_not_lt hlt)
      simp only [findBestAux, List.foldl_cons]
      rw [if_neg hlt, hmax, ih best sc]
      have hsle := Nat.le_of_not_lt hlt
      generalize hF : ms.foldl (fun a m2 => max a (calculateMatchScore q m2)) sc = F
      by_cases hscF : sc < F
      · rw [if_pos hscF, if_pos hscF]
        have hne : calculateMatchScore q m ≠ F := by omega
        rw [List.find?_cons_of_neg _ (by simp [hne])]
      · rw [if_neg hscF, if_neg hscF]

theorem findMatchingSkill_eq_spec :
    ∀ (ms : List SkillMetadata) (query : Str),
    FindMatchingSkill ms query = specFindMatchingSkill ms query := by
  intro ms query
  simp only [FindMatchingSkill, specFindMatchingSkill, maxScore]
  rw [findBestAux_snd, findBestAux_fst]
  by_cases h2 : ms.foldl (fun a m => max a (calculateMatchScore (lowerStr query) m)) 0 < 2
  · rw [if_pos h2, if_neg (by omega)]
  · rw [if_neg h2, if_pos (by omega), if_pos (by omega)]

/-- Claim C6 (confirmed): `FindMatchingSkill` lower-cases and word-splits
the query, scores each entry +3 per query word contained in the lower-cased
name plus +1 per query word longer than two characters contained in the
lower-cased description, keeps the first entry in list order attaining the
maximum score, and returns it exactly when that score is at least 2. -/
theorem c6_keyword_match :
    (∀ (ms : List SkillMetadata) (query : Str),
      FindMatchingSkill ms query = specFindMatchingSkill ms query) ∧
    (∀ (q : Str) (m : SkillMetadata), calculateMatchScore q m = specScore q m) :=
  ⟨findMatchingSkill_eq_spec, calculateMatchScore_eq_specScore⟩

theorem strLeads_append (n b : Str) : strLeads (n ++ b) n = true := by
  induction n with
  | nil => cases b <;> rfl
  | cons c n ih => simp [strLeads, ih]

theorem strContains_nil_sub (s : Str) : strContains s [] = true := by
  cases s <;> rfl

theorem strContains_of_strLeads :
    ∀ (s n : Str), strLeads s n = true → strContains s n = true := by
  intro s n h
  cases n with
  | nil => exact strContains_nil_sub s
  | cons d nds =>
    cases s with
    | nil => exact Bool.noConfusion h
    | cons c cs =>
      simp only [strContains]
      rw [if_neg (by simp), h]
      rfl

theorem strContains_cons (c : Char) (s n : Str) (h : strContains s n = true) :
    strContains (c :: s) n = true := by
  cases n with
  | nil => exact strContains_nil_sub _
  | cons d nds =>
    simp only [strContains]
    rw [if_neg (by simp), h]
    simp

theorem strContains_append (a n b : Str) : strContains (a ++ (n ++ b)) n = true := by
  induction a with
  | nil => exact strContains_of_strLeads _ _ (strLeads_append n b)
  | cons c a ih => exact strContains_cons c _ n ih

/-- Claim C9 (corrected), counterexample: `LoadSkill` on an unknown name
returns the NotFound `SkillError` whose rendered message is the fixed text
`skill not found`; the requested name `my-skill` is stored in the
`SkillPath` field but does not occur in the user-visible message. -/
theorem c9_not_found_counterexample :
    LoadSkill (fun _ => none) (fun _ => none) "my-skill".data =
      .error (notFoundError "my-skill".data) ∧
    SkillError.render (notFoundError "my-skill".data) = "skill not found".data ∧
    strContains (SkillError.render (notFoundError "my-skill".data)) "my-skill".data
      = false :=
  ⟨by rfl, by rfl, by decide⟩

/-- Claim C9 (amended): when a name is present under neither root, the
by-name load path (`LoadSkill`, and hence `Registry.Get` on a cache miss)
fails with a NotFound `SkillError` that carries the requested name in its
`SkillPath` field, but whose own error message is the fixed text
`skill not found` and does not contain the name; the name reaches the
user-visible message only when a caller wraps the error, as the
`view_skill` tool does with `failed to load skill '<name>': ...`. -/
theorem c9_not_found_amended :
    ∀ (cache projectLoad globalLoad : Str → Option Skill) (name : Str),
      projectLoad name = none → globalLoad name = none → cache name = none →
      LoadSkill projectLoad globalLoad name = .error (notFoundError name) ∧
      registryGet cache projectLoad globalLoad name = .error (notFoundError name) ∧
      (notFoundError name).skillPath = name ∧
      (notFoundError name).render = "skill not found".data ∧
      strContains (viewSkillErrorMessage name (notFoundError name)) name = true := by
  intro cache projectLoad globalLoad name hp hg hc
  have hload : LoadSkill projectLoad globalLoad name = .error (notFoundError name) := by
    unfold LoadSkill
    rw [hp, hg]
  refine ⟨hload, ?_, rfl, rfl, ?_⟩
  · unfold registryGet
    rw [hc, hload]
  · unfold viewSkillErrorMessage
    rw [show "failed to load skill ".data ++ quoteChar ::
        (name ++ quoteChar :: ':' :: ' ' :: (notFoundError name).render) =
        ("failed to load skill ".data ++ [quoteChar]) ++
        (name ++ (quoteChar :: ':' :: ' ' :: (notFoundError name).render)) from by
      simp]
    exact strContains_append _ name _

theorem c9_not_found_amended_witness :
    LoadSkill (fun _ => none) (fun _ => none) "ns".data =
      .error (notFoundError "ns".data) ∧
    strContains (viewSkillErrorMessage "ns".data (notFoundError "ns".data)) "ns".data
      = true :=
  ⟨(c9_not_found_amended (fun _ => none) (fun _ => none) (fun _ => none) "ns".data
      rfl rfl rfl).1,
    (c9_not_found_amended (fun _ => none) (fun _ => none) (fun _ => none) "ns".data
      rfl rfl rfl).2.2.2.2⟩

/-- Claim C7 (corrected), counterexample: a remove/chmod-style event (not a
write, not a create) on a path whose base name is `SKILL.md` still arms the
debounce timer — the loop never inspects the operation bits when the base
name matches. -/
theorem c7_event_filter_counterexample :
    (handleEvent ⟨false, false, []⟩
      ⟨"/skills/x/SKILL.md".data, false, false, false⟩).timerArmed = true ∧
    (⟨"/skills/x/SKILL.md".data, false, false, false⟩ : FsEvent).isWrite = false ∧
    (⟨"/skills/x/SKILL.md".data, false, false, false⟩ : FsEvent).isCreate = false :=
  ⟨by decide, rfl, rfl⟩

/-- Claim C7 (amended): in the watcher event loop, any event whose file
base name equals `SKILL.md` — regardless of operation type — arms the
reload debounce timer and marks a reload pending; an event with a different
base name arms nothing: it registers the path for watching exactly when it
is a creation event on a directory, and otherwise leaves the state
unchanged. -/
theorem c7_event_filter_amended :
    ∀ (s : WatchState) (e : FsEvent),
      (baseName e.name = SkillFileName →
        handleEvent s e = { s with timerArmed := true, pending := true }) ∧
      (baseName e.name ≠ SkillFileName → (e.isCreate && e.isDir) = true →
        handleEvent s e = { s with watched := s.watched ++ [e.name] }) ∧
      (baseName e.name ≠ SkillFileName → (e.isCreate && e.isDir) = false →
        handleEvent s e = s) := by
  intro s e
  refine ⟨fun h => ?_, fun h hc => ?_, fun h hc => ?_⟩
  · unfold handleEvent
    rw [if_neg (by simp [h])]
  · unfold handleEvent
    rw [if_pos h, if_pos (by simp only [Bool.and_eq_true] at hc; exact ⟨hc.1, hc.2⟩)]
  · unfold handleEvent
    rw [if_pos h, if_neg (by intro h2; rw [h2.1, h2.2] at hc; exact Bool.noConfusion hc)]

theorem c7_event_filter_amended_witness :
    handleEvent ⟨false, false, []⟩ ⟨"/a/SKILL.md".data, true, false, false⟩ =
      ⟨true, true, []⟩ ∧
    handleEvent ⟨false, false, []⟩ ⟨"/a/newdir".data, false, true, true⟩ =
      ⟨false, false, ["/a/newdir".data]⟩ ∧
    handleEvent ⟨false, false, []⟩ ⟨"/a/other.txt".data, true, false, false⟩ =
      ⟨false, false, []⟩ :=
  ⟨by rw [(c7_event_filter_amended ⟨false, false, []⟩
      ⟨"/a/SKILL.md".data, true, false, false⟩).1 (by decide)]
     ; try rfl,
    by rw [(c7_event_filter_amended ⟨false, false, []⟩
      ⟨"/a/newdir".data, false, true, true⟩).2.1 (by decide) (by decide)]
     ; try rfl,
    by rw [(c7_event_filter_amended ⟨false, false, []⟩
      ⟨"/a/other.txt".data, true, false, false⟩).2.2 (by decide) (by decide)]
     ; try rfl⟩

theorem regInv_init (oldM newM : List SkillMetadata) (oldC : List (Str × Skill)) :
    RegInv oldM newM oldC (initState oldM oldC) := by
  refine ⟨?_, ?_, ?_, ?_, ?_, ?_, ?_⟩
  · simp [initState]
  · intro _; exact ⟨rfl, rfl⟩
  · intro hx; exact WriterPc.noConfusion hx
  · intro hx; rcases hx with hx | hx <;> exact WriterPc.noConfusion hx
  · simp [initState]
  · intro ob hob; exact Option.noConfusion hob
  · intro hr; exact absurd hr (by simp [initState])

theorem regInv_writer (oldM newM : List SkillMetadata) (oldC : List (Str × Skill))
    (s s2 : RegState) (hInv : RegInv oldM newM oldC s)
    (h : writerStep newM s = some s2) : RegInv oldM newM oldC s2 := by
  obtain ⟨h1, h2, h3, h4, h5, h6, h7⟩ := hInv
  cases hw : s.wpc with
  | lock =>
    unfold writerStep at h
    rw [hw] at h
    by_cases hcond : s.wheld = false ∧ s.rheld = 0
    · rw [if_pos hcond] at h
      obtain rfl : s2 = { s with wheld := true, wpc := .setMeta } :=
        (Option.some.inj h).symm
      obtain ⟨hm, hc⟩ := h2 (Or.inl hw)
      refine ⟨?_, ?_, ?_, ?_, ?_, ?_, ?_⟩
      · simp
      · intro _; exact ⟨hm, hc⟩
      · intro hx; exact WriterPc.noConfusion hx
      · intro hx; rcases hx with hx | hx <;> exact WriterPc.noConfusion hx
      · exact h5
      · exact h6
      · intro hr
        have hr2 : 0 < s.rheld := hr
        have := hcond.2
        omega
    · rw [if_neg hcond] at h
      exact Option.noConfusion h
  | setMeta =>
    unfold writerStep at h
    rw [hw] at h
    obtain rfl : s2 = { s with meta := newM, wpc := .clearCache } :=
      (Option.some.inj h).symm
    refine ⟨?_, ?_, ?_, ?_, ?_, ?_, ?_⟩
    · exact ⟨fun _ => Or.inr (Or.inl rfl), fun _ => h1.mpr (Or.inl hw)⟩
    · intro hx; rcases hx with hx | hx <;> exact WriterPc.noConfusion hx
    · intro _; exact ⟨rfl, (h2 (Or.inr hw)).2⟩
    · intro hx; rcases hx with hx | hx <;> exact WriterPc.noConfusion hx
    · exact h5
    · exact h6
    · intro hr; exact h7 hr
  | clearCache =>
    unfold writerStep at h
    rw [hw] at h
    obtain rfl : s2 = { s with cache := [], wpc := .unlock } :=
      (Option.some.inj h).symm
    refine ⟨?_, ?_, ?_, ?_, ?_, ?_, ?_⟩
    · exact ⟨fun _ => Or.inr (Or.inr rfl), fun _ => h1.mpr (Or.inr (Or.inl hw))⟩
    · intro hx; rcases hx with hx | hx <;> exact WriterPc.noConfusion hx
    · intro hx; exact WriterPc.noConfusion hx
    · intro _; exact ⟨(h3 hw).1, rfl⟩
    · exact h5
    · exact h6
    · intro hr; exact h7 hr
  | unlock =>
    unfold writerStep at h
    rw [hw] at h
    obtain rfl : s2 = { s with wheld := false, wpc := .done } :=
      (Option.some.inj h).symm
    refine ⟨?_, ?_, ?_, ?_, ?_, ?_, ?_⟩
    · exact ⟨fun hx => Bool.noConfusion hx,
        fun hx => by rcases hx with hx | hx | hx <;> exact WriterPc.noConfusion hx⟩
    · intro hx; rcases hx with hx | hx <;> exact WriterPc.noConfusion hx
    · intro hx; exact WriterPc.noConfusion hx
    · intro _; exact h4 (Or.inl hw)
    · exact h5
    · exact h6
    · intro _; rfl
  | done =>
    unfold writerStep at h
    rw [hw] at h
    exact Option.noConfusion h

theorem regInv_reader (oldM newM : List SkillMetadata) (oldC : List (Str × Skill))
    (s s2 : RegState) (hInv : RegInv oldM newM oldC s)
    (h : readerStep s = some s2) : RegInv oldM newM oldC s2 := by
  obtain ⟨h1, h2, h3, h4, h5, h6, h7⟩ := hInv
  cases hr : s.rpc with
  | rlock =>
    unfold readerStep at h
    rw [hr] at h
    by_cases hcond : s.wheld = false
    · rw [if_pos hcond] at h
      obtain rfl : s2 = { s with rheld := s.rheld + 1, rpc := .readMeta } :=
        (Option.some.inj h).symm
      have h50 : s.rheld = 0 := by
        rw [hr] at h5
        simpa using h5
      refine ⟨h1, h2, h3, h4, ?_, h6, ?_⟩
      · show s.rheld + 1 = if (ReaderPc.readMeta = .readMeta ∨ ReaderPc.readMeta = .runlock)
            then 1 else 0
        rw [if_pos (Or.inl rfl), h50]
      · intro _; exact hcond
    · rw [if_neg hcond] at h
      exact Option.noConfusion h
  | readMeta =>
    unfold readerStep at h
    rw [hr] at h
    obtain rfl : s2 = { s with observed := some (s.meta, s.cache), rpc := .runlock } :=
      (Option.some.inj h).symm
    have h51 : s.rheld = 1 := by
      rw [hr] at h5
      simpa using h5
    have hwf : s.wheld = false := h7 (by omega)
    have hX : ¬ (s.wpc = .setMeta ∨ s.wpc = .clearCache ∨ s.wpc = .unlock) := by
      intro hx
      have := h1.mpr hx
      rw [hwf] at this
      exact Bool.noConfusion this
    refine ⟨h1, h2, h3, h4, ?_, ?_, ?_⟩
    · show s.rheld = if (ReaderPc.runlock = .readMeta ∨ ReaderPc.runlock = .runlock)
          then 1 else 0
      rw [if_pos (Or.inr rfl), h51]
    · intro ob hob
      obtain rfl : ob = (s.meta, s.cache) := (Option.some.inj hob).symm
      cases hwp : s.wpc with
      | lock =>
        obtain ⟨hm, hc⟩ := h2 (Or.inl hwp)
        exact Or.inl (by rw [hm, hc])
      | setMeta => exact absurd (Or.inl hwp) hX
      | clearCache => exact absurd (Or.inr (Or.inl hwp)) hX
      | unlock => exact absurd (Or.inr (Or.inr hwp)) hX
      | done =>
        obtain ⟨hm, hc⟩ := h4 (Or.inr hwp)
        exact Or.inr (by rw [hm, hc])
    · intro hx; exact h7 hx
  | runlock =>
    unfold readerStep at h
    rw [hr] at h
    obtain rfl : s2 = { s with rheld := s.rheld - 1, rpc := .done } :=
      (Option.some.inj h).symm
    have h51 : s.rheld = 1 := by
      rw [hr] at h5
      simpa using h5
    refine ⟨h1, h2, h3, h4, ?_, h6, ?_⟩
    · show s.rheld - 1 = if (ReaderPc.done = .readMeta ∨ ReaderPc.done = .runlock)
          then 1 else 0
      rw [if_neg (by simp), h51]
    · intro hx
      have hx2 : 0 < s.rheld - 1 := hx
      exact h7 (by omega)
  | done =>
    unfold readerStep at h
    rw [hr] at h
    exact Option.noConfusion h

theorem regInv_run (oldM newM : List SkillMetadata) (oldC : List (Str × Skill)) :
    ∀ (sched : List Bool) (s s2 : RegState),
    RegInv oldM newM oldC s → runSched newM sched s = some s2 →
    RegInv oldM newM oldC s2 := by
  intro sched
  induction sched with
  | nil =>
    intro s s2 hI h
    simp only [runSched] at h
    exact (Option.some.inj h) ▸ hI
  | cons b bs ih =>
    intro s s2 hI h
    simp only [runSched] at h
    cases hstep : (if b then writerStep newM s else readerStep s) with
    | none => rw [hstep] at h; exact Option.noConfusion h
    | some s3 =>
      rw [hstep] at h
      have h2 : runSched newM bs s3 = some s2 := h
      refine ih s3 s2 ?_ h2
      cases b
      · exact regInv_reader oldM newM oldC s s3 hI hstep
      · exact regInv_writer oldM newM oldC s s3 hI hstep

/-- Claim C8 (confirmed): in the interleaving model of `Initialize`/`Reload`
against a concurrent `GetMetadata`, the metadata assignment and the cache
reset both execute while the writer holds the exclusive lock, and any state
the reader observes is either the complete old (metadata, cache) pair or
the complete new one — never a mixture. -/
theorem c8_reload_atomicity :
    ∀ (oldM newM : List SkillMetadata) (oldC : List (Str × Skill))
      (sched : List Bool) (s2 : RegState),
      runSched newM sched (initState oldM oldC) = some s2 →
      ((s2.wpc = .setMeta ∨ s2.wpc = .clearCache) → s2.wheld = true) ∧
      (∀ ob, s2.observed = some ob → ob = (oldM, oldC) ∨ ob = (newM, [])) := by
  intro oldM newM oldC sched s2 h
  obtain ⟨h1, _, _, _, _, h6, _⟩ :=
    regInv_run oldM newM oldC sched (initState oldM oldC) s2
      (regInv_init oldM newM oldC) h
  refine ⟨fun hx => h1.mpr ?_, h6⟩
  rcases hx with hx | hx
  · exact Or.inl hx
  · exact Or.inr (Or.inl hx)

theorem c8_reload_atomicity_witness :
    (([] : List SkillMetadata), ([] : List (Str × Skill))) = ([], []) ∨
      (([] : List SkillMetadata), ([] : List (Str × Skill))) =
        ([⟨"a".data, "d".data, SkillSource.global, "p".data⟩], []) :=
  (c8_reload_atomicity [] [⟨"a".data, "d".data, .global, "p".data⟩] []
    [false, false, false, true, true, true, true]
    ⟨.done, .done, false, 0, [⟨"a".data, "d".data, .global, "p".data⟩], [],
      some ([], [])⟩
    (by rfl)).2 ([], []) (by rfl)
